import Mathlib

/-!
Verification of the multi-source radio-frequency resolution engine
(markup extractor, region resolver, taxonomy/tag filtering, merge engine,
cache store adapter, service-type filter, AI oracle adapter).

Each definition is a shallow embedding of the corresponding TypeScript
function from the repository (file and function named in its doc comment).
JavaScript strings are modelled by Lean `String`/`List Char`; JavaScript
numbers that only ever hold small non-negative integers are modelled by
`Nat`; values that may be `null`/`undefined` are modelled by `Option`.
-/

set_option maxHeartbeats 1000000

/-! ## JavaScript string primitives used throughout the sources -/

/-- Model of JavaScript `String.prototype.includes` on character lists:
`hasSeq needle hay` is true when `needle` occurs contiguously in `hay`. -/
def hasSeq (needle : List Char) : List Char → Bool
  | [] => needle.isPrefixOf []
  | c :: rest => needle.isPrefixOf (c :: rest) || hasSeq needle rest

/-- Model of JavaScript `String.prototype.includes`. -/
def jsIncludes (hay sub : String) : Bool := hasSeq sub.data hay.data

/-- Model of JavaScript `String.prototype.toLowerCase` (ASCII case
folding, character by character, so that it evaluates by kernel
reduction). -/
def jsToLower (s : String) : String := String.mk (s.data.map Char.toLower)

/-- Model of JavaScript `parseInt` on the strings that reach it in this
code base (leading decimal digits; `NaN` when the string has no leading
digit, modelled as `none`). -/
def jsParseIntPrefix (s : String) : Option Nat :=
  let ds := s.data.takeWhile Char.isDigit
  if ds.isEmpty then none
  else some (ds.foldl (fun n c => n * 10 + (c.toNat - 48)) 0)

/-! ## C2 — Region Resolver (src/unnamed/part_001, `inferStateIdFromZip`
and the candidate-selection loop of `handler`, lines 223–281) -/

/-- Embedding of `inferStateIdFromZip` (src/unnamed/part_001 lines 479–594):
the hard-coded postal-prefix-to-state table.  `prefix` is `parseInt` of the
first two characters, `prefix3` of the first three. -/
def inferStateIdFromZip (zip : String) : Option String :=
  if zip.length < 3 then none else
  match jsParseIntPrefix (String.mk (zip.data.take 2)) with
  | none => none
  | some p =>
    let p3 := (jsParseIntPrefix (String.mk (zip.data.take 3))).getD 0
    if 35 ≤ p ∧ p ≤ 36 then some "1"        -- AL
    else if p = 99 then some "2"            -- AK
    else if 85 ≤ p ∧ p ≤ 86 then some "3"   -- AZ
    else if 71 ≤ p ∧ p ≤ 72 then some "4"   -- AR
    else if 90 ≤ p ∧ p ≤ 96 then some "5"   -- CA
    else if 80 ≤ p ∧ p ≤ 81 then some "6"   -- CO
    else if p = 6 then some "7"             -- CT
    else if p = 19 then some "8"            -- DE
    else if 32 ≤ p ∧ p ≤ 34 then some "9"   -- FL
    else if (30 ≤ p ∧ p ≤ 31) ∨ p = 39 then some "10" -- GA
    else if p = 96 then some "11"           -- HI
    else if p = 83 then (if p3 = 830 ∨ p3 = 831 then some "50" else some "12") -- ID/WY
    else if 60 ≤ p ∧ p ≤ 62 then some "13"  -- IL
    else if 46 ≤ p ∧ p ≤ 47 then some "14"  -- IN
    else if 50 ≤ p ∧ p ≤ 52 then some "15"  -- IA
    else if 66 ≤ p ∧ p ≤ 67 then some "16"  -- KS
    else if 40 ≤ p ∧ p ≤ 42 then some "17"  -- KY
    else if 70 ≤ p ∧ p ≤ 71 then some "18"  -- LA
    else if 3 ≤ p ∧ p ≤ 4 then some "19"    -- ME
    else if 20 ≤ p ∧ p ≤ 21 then some "20"  -- MD
    else if (1 ≤ p ∧ p ≤ 2) ∨ p = 5 then some "21" -- MA
    else if 48 ≤ p ∧ p ≤ 49 then some "22"  -- MI
    else if 55 ≤ p ∧ p ≤ 56 then some "23"  -- MN
    else if 38 ≤ p ∧ p ≤ 39 then some "24"  -- MS
    else if 63 ≤ p ∧ p ≤ 65 then some "25"  -- MO
    else if p = 59 then some "26"           -- MT
    else if 68 ≤ p ∧ p ≤ 69 then some "27"  -- NE
    else if 88 ≤ p ∧ p ≤ 89 then some "28"  -- NV
    else if p = 3 then some "29"            -- NH
    else if 7 ≤ p ∧ p ≤ 8 then some "30"    -- NJ
    else if 87 ≤ p ∧ p ≤ 88 then some "31"  -- NM
    else if 10 ≤ p ∧ p ≤ 14 then some "32"  -- NY
    else if 27 ≤ p ∧ p ≤ 28 then some "33"  -- NC
    else if p = 58 then some "34"           -- ND
    else if 43 ≤ p ∧ p ≤ 45 then some "35"  -- OH
    else if 73 ≤ p ∧ p ≤ 74 then some "36"  -- OK
    else if p = 97 then some "37"           -- OR
    else if 15 ≤ p ∧ p ≤ 19 then some "38"  -- PA
    else if p = 2 then some "39"            -- RI
    else if p = 29 then some "40"           -- SC
    else if p = 57 then some "41"           -- SD
    else if 37 ≤ p ∧ p ≤ 38 then some "42"  -- TN
    else if 75 ≤ p ∧ p ≤ 79 then some "43"  -- TX
    else if p = 84 then some "44"           -- UT
    else if p = 5 then some "45"            -- VT
    else if 22 ≤ p ∧ p ≤ 24 then some "46"  -- VA
    else if 98 ≤ p ∧ p ≤ 99 then some "47"  -- WA
    else if 24 ≤ p ∧ p ≤ 26 then some "48"  -- WV
    else if 53 ≤ p ∧ p ≤ 54 then some "49"  -- WI
    else if p = 82 ∨ p3 = 830 ∨ p3 = 831 then some "50" -- WY
    else if 200 ≤ p3 ∧ p3 ≤ 205 then some "51" -- DC
    else none

/-- One candidate `(county, state)` item parsed out of the `getZipcodeInfo`
response (the fields the selection loop reads via `getTextContent`). -/
structure ZipCand where
  ctid : String
  stid : String
  city : String
deriving DecidableEq, Repr

/-- Validity test used by the loop: `if (!c || c === '0') continue;`. -/
def validCt (c : ZipCand) : Bool := !(c.ctid = "" ∨ c.ctid = "0")

/-- Embedding of the first `for (const itemXml of zipItems)` loop of the
handler (src/unnamed/part_001 lines 225–253): scan candidates in order,
skipping those without a valid county id; with a known expected state take
the first whose state matches it, without one take the first valid
candidate. -/
def findStrictMatch (items : List ZipCand) (expected : Option String) : Option ZipCand :=
  match items with
  | [] => none
  | c :: rest =>
    if validCt c then
      match expected with
      | some st => if c.stid = st then some c else findStrictMatch rest expected
      | none => some c
    else findStrictMatch rest expected

/-- Embedding of the full candidate selection of the handler
(src/unnamed/part_001 lines 223–272): the strict loop above, then the
fallback that inspects only `zipItems[0]` and forces the expected state
(`const finalStid = expectedStid || s`). -/
def bestMatchFor (items : List ZipCand) (expected : Option String) : Option ZipCand :=
  match findStrictMatch items expected with
  | some m => some m
  | none =>
    match items with
    | [] => none
    | first :: _ =>
      if validCt first then
        some { ctid := first.ctid, stid := expected.getD first.stid, city := first.city }
      else none

/-- Spec-side selection policy, written from the amended wording of claim
C2: with a known expected state, pick the first candidate with a valid
county id whose state matches; failing that, fall back to the *first
candidate overall* — selected with its state overwritten only if its own
county id is valid, otherwise nothing is selected.  With no expected
state, pick the first candidate with a valid county id, unchanged. -/
def selectionPolicy (items : List ZipCand) (expected : Option String) : Option ZipCand :=
  match expected with
  | some st =>
    match items.find? (fun c => validCt c && c.stid = st) with
    | some m => some m
    | none =>
      match items with
      | [] => none
      | first :: _ => if validCt first then some { first with stid := st } else none
  | none => items.find? validCt

theorem findStrictMatch_some (items : List ZipCand) (st : String) :
    findStrictMatch items (some st) = items.find? (fun c => validCt c && c.stid = st) := by
  induction items with
  | nil => rfl
  | cons c rest ih =>
    simp only [findStrictMatch, List.find?]
    by_cases h : validCt c = true
    · simp only [h, if_pos rfl, Bool.true_and]
      by_cases hs : c.stid = st
      · simp [hs]
      · simp [hs, ih]
    · simp only [Bool.not_eq_true] at h
      simp [h, ih]

theorem findStrictMatch_none (items : List ZipCand) :
    findStrictMatch items none = items.find? validCt := by
  induction items with
  | nil => rfl
  | cons c rest ih =>
    simp only [findStrictMatch, List.find?]
    by_cases h : validCt c = true
    · simp [h]
    · simp only [Bool.not_eq_true] at h
      simp [h, ih]

/-- C2 (counterexample): for ZIP 84770 the prefix table yields expected
state "44" (Utah), and for the candidate list
`[{ctid:"0",stid:"16"}, {ctid:"7",stid:"16"}]` no candidate state matches;
the claim then demands that the *first candidate with a valid county id*
(the second one) be selected with its state overwritten to "44", but the
code's fallback inspects only `zipItems[0]`, whose county id is invalid,
and selects nothing. -/
theorem C2_counterexample :
    inferStateIdFromZip "84770" = some "44" ∧
    validCt ⟨"7", "16", "B"⟩ = true ∧
    bestMatchFor [⟨"0", "16", "A"⟩, ⟨"7", "16", "B"⟩] (inferStateIdFromZip "84770") = none :=
  ⟨rfl, rfl, rfl⟩

/-- C2 (amended): the handler's candidate selection equals the amended
policy: with an expected state from the prefix table, the first candidate
with a valid county id whose state matches is selected unchanged; if none
matches, the fallback considers only the first candidate overall and
selects it with its state overwritten by the expected state when its
county id is valid (otherwise nothing is selected); with no expected
state, the first candidate with a valid county id is selected unchanged. -/
theorem C2_selection_amended (items : List ZipCand) (zip : String) :
    bestMatchFor items (inferStateIdFromZip zip) = selectionPolicy items (inferStateIdFromZip zip) := by
  cases h : inferStateIdFromZip zip with
  | some st =>
    simp only [bestMatchFor, selectionPolicy, findStrictMatch_some]
    cases hf : items.find? (fun c => validCt c && c.stid = st) with
    | some m => rfl
    | none =>
      cases items with
      | nil => rfl
      | cons first rest =>
        by_cases hv : validCt first = true
        · simp [hv, Option.getD]
        · simp only [Bool.not_eq_true] at hv
          simp [hv]
  | none =>
    simp only [bestMatchFor, selectionPolicy, findStrictMatch_none]
    cases hf : items.find? validCt with
    | some m => rfl
    | none =>
      cases items with
      | nil => rfl
      | cons first rest =>
        have : validCt first = false := by
          by_contra hc
          simp only [Bool.not_eq_false] at hc
          have := List.find?_eq_none.mp hf first (List.mem_cons_self _ _)
          simp [hc] at this
        simp [this]

/-! ## Taxonomy Mapper and Channel/Talkgroup Fetcher
(src/unnamed/part_001: `TAG_MAP`, `getTagIdsForService`, `getTagName`,
`parseFrequencies`, `parseTalkgroups`, and the relevant-tag-set
construction in `handler` lines 326–342).  XML items are modelled as
records holding the fields the parsers extract (`out`/`tgDec` text,
`tagId` list, and the copied-through text fields). -/

/-- Embedding of the `TAG_MAP` constant (insertion order preserved, as
`Object.entries` iterates it). -/
def TAG_MAP : List (String × Nat) :=
  [("Law Dispatch", 1), ("Law Talk", 2), ("Law Tactical", 3),
   ("Fire Dispatch", 4), ("Fire Talk", 5), ("Fire Tactical", 6),
   ("EMS Dispatch", 7), ("EMS Talk", 8), ("EMS Tactical", 9),
   ("Hospital", 10), ("Ham", 11), ("Public Works", 12),
   ("Transportation", 14), ("Military", 15), ("Federal", 16),
   ("Corrections", 18), ("Schools", 20), ("Security", 21),
   ("Utilities", 22), ("Air", 23), ("Railroad", 25), ("Marine", 26),
   ("Business", 29), ("Multi-Dispatch", 30)]

/-- Embedding of `getTagIdsForService`. -/
def getTagIdsForService (serviceType : String) : List Nat :=
  let st := jsToLower serviceType
  if st = "police" then [1, 2, 3]
  else if st = "fire" then [4, 5, 6]
  else if st = "ems" then [7, 8, 9]
  else if st = "hospital" ∨ st = "hospitals" then [10]
  else if st = "ham radio" then [11]
  else if st = "public works" then [12]
  else if st = "transportation" then [14]
  else if st = "military" then [15]
  else if st = "federal" then [16]
  else if st = "corrections" then [18]
  else if st = "schools" then [20]
  else if st = "security" then [21]
  else if st = "utilities" then [22]
  else if st = "air" then [23]
  else if st = "railroad" then [25]
  else if st = "marine" then [26]
  else if st = "business" then [29]
  else if st = "multi-dispatch" then [30]
  else []

/-- Embedding of `getTagName`: first `TAG_MAP` entry with the given id,
defaulting to `Other`. -/
def getTagName (tagId : Nat) : String :=
  ((TAG_MAP.find? (fun e => e.2 = tagId)).map (fun e => e.1)).getD "Other"

/-- Embedding of the relevant-tag-set construction in `handler`
(src/unnamed/part_001 lines 326–342): an empty set means fetch-everything
when more than 12 services were requested; otherwise the union of the
per-service tag ids plus the always-added Military (15), Federal (16) and
Railroad (25) ids.  The JS `Set` is modelled as a list; only membership
and emptiness are ever consumed. -/
def relevantTagIdsFor (safeServices : List String) : List Nat :=
  if safeServices.length > 12 then []
  else (safeServices.map getTagIdsForService).flatten ++ [15, 16, 25]

/-- Model of JavaScript `parseFloat` on the channel-frequency strings this
code feeds it (optional sign, decimal digits with an optional fraction,
trailing junk ignored; `NaN` — no leading numeric part — is `none`;
exponent notation does not occur in this data and is not modelled). -/
def jsParseFloat (s : String) : Option ℚ :=
  let cs := s.data
  let signed : Bool × List Char :=
    match cs with
    | '-' :: t => (true, t)
    | '+' :: t => (false, t)
    | t => (false, t)
  let ip := signed.2.takeWhile Char.isDigit
  let rest := signed.2.dropWhile Char.isDigit
  let fp := match rest with
    | '.' :: t => t.takeWhile Char.isDigit
    | _ => []
  if ip.isEmpty ∧ fp.isEmpty then none
  else
    let ipv : Nat := ip.foldl (fun n c => n * 10 + (c.toNat - 48)) 0
    let fpv : Nat := fp.foldl (fun n c => n * 10 + (c.toNat - 48)) 0
    let mag : ℚ := mkRat (Int.ofNat (ipv * 10 ^ fp.length + fpv)) (10 ^ fp.length)
    some (if signed.1 then -mag else mag)

/-- Four decimal digits, zero padded: the fractional block emitted by
`toFixed(4)`. -/
def pad4 (m : Nat) : String :=
  String.mk [Nat.digitChar (m / 1000 % 10), Nat.digitChar (m / 100 % 10),
             Nat.digitChar (m / 10 % 10), Nat.digitChar (m % 10)]

/-- Model of JavaScript `Number.prototype.toFixed(4)` (exact decimal
rounding, half away from zero; binary-float artifacts are not modelled).
The rounded integer `round(|q| * 10^4)` is computed on the numerator and
denominator directly so the definition evaluates by kernel reduction. -/
def toFixed4 (q : ℚ) : String :=
  let n : Nat := (q.num.natAbs * 10000 * 2 + q.den) / (2 * q.den)
  (if q.num < 0 then "-" else "") ++ (Nat.repr (n / 10000)) ++ "." ++ pad4 (n % 10000)

/-- One `<item>` of a `getSubcatFreqs` response, as the fields
`parseFrequencies` extracts from it. -/
structure FreqItem where
  out : String
  tags : List Nat
  descr : String := ""
  mode : String := ""
  alpha : String := ""
  tone : String := ""
  colorCode : String := ""
  nac : String := ""
  ran : String := ""
deriving DecidableEq, Repr

/-- One output record pushed by `parseFrequencies`. -/
structure FreqOut where
  freq : String
  description : String
  mode : String
  tag : String
  alphaTag : String
  tone : String
  colorCode : String
  nac : String
  ran : String
deriving DecidableEq, Repr

/-- The record `parseFrequencies` pushes for a kept item with parsed
frequency `f`. -/
def mkFreqOut (item : FreqItem) (f : ℚ) : FreqOut :=
  { freq := toFixed4 f,
    description := item.descr,
    mode := if item.mode = "" then "FM" else item.mode,
    tag := match item.tags with | t :: _ => getTagName t | [] => "Other",
    alphaTag := item.alpha,
    tone := item.tone,
    colorCode := item.colorCode,
    nac := item.nac,
    ran := item.ran }

/-- Embedding of `parseFrequencies` (src/unnamed/part_001 lines 647–681 and
src/api/rrdb.ts lines 485–519): drop items with empty/`"0"` output
frequency, apply the relevant-tag filter (items with a non-empty tag list
none of whose tags is relevant are dropped — items with *no* tags pass),
drop `NaN`/zero parses, and emit the normalized record. -/
def parseFrequencies (items : List FreqItem) (relevantTagIds : List Nat) : List FreqOut :=
  match items with
  | [] => []
  | item :: rest =>
    if item.out = "" ∨ item.out = "0" then parseFrequencies rest relevantTagIds
    else
      let hasRelevantTag :=
        relevantTagIds.isEmpty || item.tags.any (fun t => relevantTagIds.contains t)
      if !hasRelevantTag && item.tags.length > 0 then parseFrequencies rest relevantTagIds
      else
        match jsParseFloat item.out with
        | none => parseFrequencies rest relevantTagIds
        | some f =>
          if f = 0 then parseFrequencies rest relevantTagIds
          else mkFreqOut item f :: parseFrequencies rest relevantTagIds

/-- One `<item>` of a `getTrsTalkgroups` response, as the fields
`parseTalkgroups` extracts from it. -/
structure TgItem where
  dec : String
  tags : List Nat
  tgMode : String := ""
  tgAlpha : String := ""
  tgDescr : String := ""
deriving DecidableEq, Repr

/-- One output record pushed by `parseTalkgroups`. -/
structure TgOut where
  dec : String
  mode : String
  alphaTag : String
  description : String
  tag : String
deriving DecidableEq, Repr

/-- The record `parseTalkgroups` pushes for a kept talkgroup. -/
def mkTgOut (item : TgItem) : TgOut :=
  let mode := if item.tgMode = "" then "D" else item.tgMode
  { dec := item.dec,
    mode := if mode = "D" then "D" else if mode = "A" then "A"
            else if mode = "T" then "TDMA" else if mode = "E" then "Encrypted" else mode,
    alphaTag := item.tgAlpha,
    description := item.tgDescr,
    tag := match item.tags with | t :: _ => getTagName t | [] => "Other" }

/-- Embedding of `parseTalkgroups` (src/unnamed/part_001 lines 739–765):
drop talkgroups with empty/`"0"` decimal id, apply the same relevant-tag
filter as `parseFrequencies`, and emit the normalized record. -/
def parseTalkgroups (items : List TgItem) (relevantTagIds : List Nat) : List TgOut :=
  match items with
  | [] => []
  | item :: rest =>
    if item.dec = "" ∨ item.dec = "0" then parseTalkgroups rest relevantTagIds
    else
      let hasRelevantTag :=
        relevantTagIds.isEmpty || item.tags.any (fun t => relevantTagIds.contains t)
      if !hasRelevantTag && item.tags.length > 0 then parseTalkgroups rest relevantTagIds
      else mkTgOut item :: parseTalkgroups rest relevantTagIds

/-- Spec-side keep-predicate for claim C4, written from the amended claim:
an item is kept iff its output frequency is present (non-empty, not the
literal `"0"`) and parses to a non-zero number, and the tag condition
holds — the relevant-tag set is empty, **or the item carries no tags at
all**, or one of its tags is in the relevant-tag set. -/
def c4Keep (rel : List Nat) (item : FreqItem) : Bool :=
  !(decide (item.out = "" ∨ item.out = "0")) &&
  ((rel.isEmpty || item.tags.isEmpty || item.tags.any (fun t => rel.contains t)) &&
   decide ((jsParseFloat item.out).getD 0 ≠ 0))

theorem skip_iff (rel : List Nat) (item : FreqItem) :
    ((!(rel.isEmpty || item.tags.any fun t => rel.contains t) &&
      decide (item.tags.length > 0)) = true)
    ↔ (rel.isEmpty || item.tags.isEmpty ||
        item.tags.any fun t => rel.contains t) = false := by
  rcases htags : item.tags with _ | ⟨a, b⟩ <;>
    cases hrel : rel.isEmpty <;>
      simp [htags, hrel, Bool.not_eq_true']

theorem parseFrequencies_eq_filter (items : List FreqItem) (rel : List Nat) :
    parseFrequencies items rel =
      (items.filter (c4Keep rel)).map
        (fun item => mkFreqOut item ((jsParseFloat item.out).getD 0)) := by
  induction items with
  | nil => rfl
  | cons item rest ih =>
    by_cases h1 : (item.out = "" ∨ item.out = "0")
    · have hk : c4Keep rel item = false := by
        have hA : (decide (item.out = "" ∨ item.out = "0")) = true := by simp [h1]
        simp only [c4Keep, hA, Bool.not_true, Bool.false_and]
      simp only [parseFrequencies, if_pos h1, List.filter, hk, ih]
    · by_cases hB : (rel.isEmpty || item.tags.isEmpty ||
          item.tags.any fun t => rel.contains t) = true
      · have hskip : (!(rel.isEmpty || item.tags.any fun t => rel.contains t) &&
            decide (item.tags.length > 0)) = false := by
          by_cases hs : (!(rel.isEmpty || item.tags.any fun t => rel.contains t) &&
              decide (item.tags.length > 0)) = true
          · rw [(skip_iff rel item).mp hs] at hB; exact Bool.noConfusion hB
          · exact Bool.not_eq_true _ ▸ (Bool.eq_false_iff.mpr (fun hc => hs hc))
        have hnskip : ¬ ((!(rel.isEmpty || item.tags.any fun t => rel.contains t) &&
            decide (item.tags.length > 0)) = true) := by
          intro hc; rw [hskip] at hc; exact Bool.noConfusion hc
        cases hp : jsParseFloat item.out with
        | none =>
          have hk : c4Keep rel item = false := by
            have hC : (decide ((jsParseFloat item.out).getD 0 ≠ 0)) = false := by
              simp [hp]
            simp only [c4Keep, hC, Bool.and_false]
          simp only [parseFrequencies, if_neg h1]
          rw [if_neg hnskip]
          simp only [hp, List.filter, hk, ih]
        | some f =>
          by_cases hz : f = 0
          · have hk : c4Keep rel item = false := by
              have hC : (decide ((jsParseFloat item.out).getD 0 ≠ 0)) = false := by
                simp [hp, hz]
              simp only [c4Keep, hC, Bool.and_false]
            simp only [parseFrequencies, if_neg h1]
            rw [if_neg hnskip]
            simp only [hp, if_pos hz, List.filter, hk, ih]
          · have hk : c4Keep rel item = true := by
              have hA : (decide (item.out = "" ∨ item.out = "0")) = false := by simp [h1]
              have hC : (decide ((jsParseFloat item.out).getD 0 ≠ 0)) = true := by
                simp [hp, hz]
              simp only [c4Keep, hA, hB, hC, Bool.not_false, Bool.true_and, Bool.and_self]
            simp only [parseFrequencies, if_neg h1]
            rw [if_neg hnskip]
            simp only [hp, if_neg hz, List.filter, hk, ih, List.map_cons, hp,
              Option.getD_some]
      · have hB0 : (rel.isEmpty || item.tags.isEmpty ||
            item.tags.any fun t => rel.contains t) = false := by
          exact Bool.eq_false_iff.mpr (fun hc => hB hc)
        have hskip := (skip_iff rel item).mpr hB0
        have hk : c4Keep rel item = false := by
          simp only [c4Keep, hB0, Bool.false_and, Bool.and_false]
        simp only [parseFrequencies, if_neg h1]
        rw [if_pos hskip]
        simp only [List.filter, hk, ih]

theorem pad4_length (m : Nat) : (pad4 m).length = 4 := rfl

theorem toFixed4_split (q : ℚ) :
    ∃ a b : String, toFixed4 q = a ++ "." ++ b ∧ b.length = 4 :=
  ⟨(if q.num < 0 then "-" else "") ++
    Nat.repr ((q.num.natAbs * 10000 * 2 + q.den) / (2 * q.den) / 10000),
   pad4 ((q.num.natAbs * 10000 * 2 + q.den) / (2 * q.den) % 10000), rfl, pad4_length _⟩

/-- C4 (amended): `parseFrequencies` keeps exactly the items whose output
frequency is present and parses to a non-zero number and which pass the
tag filter — where an item with an empty tag list *passes* even when the
non-empty relevant-tag set does not meet it (this exemption is what the
original claim missed); every kept item's frequency is rendered with
exactly four digits after the decimal point. -/
theorem C4_channel_filtering (items : List FreqItem) (rel : List Nat) :
    parseFrequencies items rel =
      (items.filter (c4Keep rel)).map
        (fun item => mkFreqOut item ((jsParseFloat item.out).getD 0)) ∧
    ∀ r ∈ parseFrequencies items rel,
      ∃ a b : String, r.freq = a ++ "." ++ b ∧ b.length = 4 := by
  refine ⟨parseFrequencies_eq_filter items rel, ?_⟩
  intro r hr
  rw [parseFrequencies_eq_filter items rel] at hr
  rcases List.mem_map.mp hr with ⟨item, _, heq⟩
  rw [← heq]
  exact toFixed4_split _

/-- Witness for C4 on a concrete item: the characterization and the
four-decimal format, evaluated at an untagged 155.5 MHz channel against
the relevant-tag set `{1}`. -/
theorem C4_channel_filtering_witness :
    parseFrequencies [{ out := "155.5", tags := [] }] [1] =
      ([({ out := "155.5", tags := [] } : FreqItem)].filter (c4Keep [1])).map
        (fun item => mkFreqOut item ((jsParseFloat item.out).getD 0)) ∧
    (∃ a b : String,
      (mkFreqOut { out := "155.5", tags := [] } (mkRat 1555 10)).freq = a ++ "." ++ b ∧
      b.length = 4) :=
  ⟨(C4_channel_filtering [{ out := "155.5", tags := [] }] [1]).1,
   (C4_channel_filtering [{ out := "155.5", tags := [] }] [1]).2 _ (by decide)⟩

/-- C4 (counterexample): with the non-empty relevant-tag set `{1}`, an
item with a valid non-zero output frequency and *no* tag identifiers is
kept by the code, although none of its tag identifiers (there are none)
is a member of the relevant-tag set — contradicting the claim's "kept
only if at least one of the item's tag identifiers is a member". -/
theorem C4_counterexample :
    ({ out := "155.5", tags := [] } : FreqItem).tags = [] ∧
    ([1] : List Nat) ≠ [] ∧
    parseFrequencies [{ out := "155.5", tags := [] }] [1] ≠ [] :=
  ⟨rfl, by decide, by decide⟩

/-- C10: whenever at most 12 service categories are selected (so that tag
filtering is active), the relevant-tag set contains the Military (15),
Federal (16) and Railroad (25) identifiers, and a channel item or
talkgroup carrying such a tag passes the filter even though no
corresponding service was requested. -/
theorem C10_hidden_service_tags (services : List String)
    (item : FreqItem) (tg : TgItem) (restF : List FreqItem) (restT : List TgItem)
    (f : ℚ) (t u : Nat)
    (hsvc : services.length ≤ 12)
    (hf1 : jsParseFloat item.out = some f) (hf2 : f ≠ 0)
    (ho1 : item.out ≠ "") (ho2 : item.out ≠ "0")
    (ht : t ∈ item.tags) (ht31 : t = 15 ∨ t = 16 ∨ t = 25)
    (hd1 : tg.dec ≠ "") (hd2 : tg.dec ≠ "0")
    (hu : u ∈ tg.tags) (hu31 : u = 15 ∨ u = 16 ∨ u = 25) :
    (15 ∈ relevantTagIdsFor services ∧ 16 ∈ relevantTagIdsFor services ∧
     25 ∈ relevantTagIdsFor services) ∧
    parseFrequencies (item :: restF) (relevantTagIdsFor services) =
      mkFreqOut item f :: parseFrequencies restF (relevantTagIdsFor services) ∧
    parseTalkgroups (tg :: restT) (relevantTagIdsFor services) =
      mkTgOut tg :: parseTalkgroups restT (relevantTagIdsFor services) := by
  have hgt : ¬ (services.length > 12) := by omega
  have hrel : relevantTagIdsFor services =
      (services.map getTagIdsForService).flatten ++ [15, 16, 25] := by
    simp [relevantTagIdsFor, hgt]
  have hmem : ∀ v : Nat, v = 15 ∨ v = 16 ∨ v = 25 → v ∈ relevantTagIdsFor services := by
    intro v hv
    rw [hrel]
    refine List.mem_append_right _ ?_
    rcases hv with h | h | h <;> simp [h]
  have hhasF : ((relevantTagIdsFor services).isEmpty ||
      item.tags.any fun x => (relevantTagIdsFor services).contains x) = true := by
    refine Bool.or_eq_true_iff.mpr (Or.inr ?_)
    exact List.any_eq_true.mpr ⟨t, ht, List.elem_eq_true_of_mem (hmem t ht31)⟩
  have hhasT : ((relevantTagIdsFor services).isEmpty ||
      tg.tags.any fun x => (relevantTagIdsFor services).contains x) = true := by
    refine Bool.or_eq_true_iff.mpr (Or.inr ?_)
    exact List.any_eq_true.mpr ⟨u, hu, List.elem_eq_true_of_mem (hmem u hu31)⟩
  refine ⟨⟨hmem 15 (Or.inl rfl), hmem 16 (Or.inr (Or.inl rfl)),
    hmem 25 (Or.inr (Or.inr rfl))⟩, ?_, ?_⟩
  · have h1 : ¬ (item.out = "" ∨ item.out = "0") := by tauto
    simp only [parseFrequencies, if_neg h1]
    rw [if_neg (show ¬ ((!((relevantTagIdsFor services).isEmpty ||
        item.tags.any fun x => (relevantTagIdsFor services).contains x) &&
        decide (item.tags.length > 0)) = true) from by
      rw [hhasF]; simp)]
    rw [hf1]
    simp only [if_neg hf2]
  · have h1 : ¬ (tg.dec = "" ∨ tg.dec = "0") := by tauto
    simp only [parseTalkgroups, if_neg h1]
    rw [if_neg (show ¬ ((!((relevantTagIdsFor services).isEmpty ||
        tg.tags.any fun x => (relevantTagIdsFor services).contains x) &&
        decide (tg.tags.length > 0)) = true) from by
      rw [hhasT]; simp)]

/-- Witness for C10: with only `Police` selected, a Military-tagged
channel and a Railroad-tagged talkgroup are both returned. -/
theorem C10_hidden_service_tags_witness :
    (["Police"] : List String).length ≤ 12 ∧
    (15 ∈ relevantTagIdsFor ["Police"] ∧ 16 ∈ relevantTagIdsFor ["Police"] ∧
     25 ∈ relevantTagIdsFor ["Police"]) ∧
    parseFrequencies [{ out := "155.5", tags := [15] }] (relevantTagIdsFor ["Police"]) =
      [mkFreqOut { out := "155.5", tags := [15] } (mkRat 1555 10)] ∧
    parseTalkgroups [{ dec := "100", tags := [25] }] (relevantTagIdsFor ["Police"]) =
      [mkTgOut { dec := "100", tags := [25] }] := by
  have h := C10_hidden_service_tags ["Police"] { out := "155.5", tags := [15] }
    { dec := "100", tags := [25] } [] [] (mkRat 1555 10) 15 25
    (by decide) (by decide) (by decide) (by decide) (by decide)
    (by decide) (Or.inl rfl) (by decide) (by decide) (by decide) (Or.inr (Or.inr rfl))
  exact ⟨by decide, h.1, h.2.1, h.2.2⟩

/-! ## Shared data model (src/types.ts shapes, restricted to the fields
the merge engine, service-type filter and cache pipeline read) -/

/-- One trunked-system frequency `{freq, use}`. -/
structure TrsFreq where
  freq : String
  use : String
deriving DecidableEq, Repr

/-- An agency record. -/
structure Agency where
  name : String
  category : String := ""
  frequencies : List FreqOut := []
deriving DecidableEq, Repr

/-- A trunked-system record. -/
structure TrunkedSystem where
  name : String
  type : String := ""
  location : String := ""
  frequencies : List TrsFreq := []
  talkgroups : List TgOut := []
deriving DecidableEq, Repr

/-- A `ScanResult` (fields not read by the verified components — the
geocoordinate and the cross-reference block — are elided). -/
structure ScanResult where
  source : String := ""
  locationName : String := ""
  summary : String := ""
  agencies : List Agency := []
  trunkedSystems : List TrunkedSystem := []
deriving DecidableEq, Repr

/-! ## C3 — Merge Engine (src/services/geminiService.ts,
`mergeResults` lines 224–261 and `normalizeName` lines 263–265) -/

/-- Embedding of `normalizeName`: lower-case, then strip every character
outside `a–z`/`0–9`. -/
def normalizeName (str : String) : String :=
  String.mk ((jsToLower str).data.filter
    (fun c => ('a' ≤ c ∧ c ≤ 'z') ∨ ('0' ≤ c ∧ c ≤ '9')))

/-- Embedding of the two identical append-if-new loops of `mergeResults`:
walk the heuristic entries and push each one whose normalized name is not
yet in the `existing` name set, updating the set as entries are added
(`existingNames.add(norm)` prevents in-batch duplicates). -/
def appendNew (nm : α → String) (base : List α) (existing : List String) :
    List α → List α
  | [] => base
  | a :: rest =>
    if existing.contains (nm a) then appendNew nm base existing rest
    else appendNew nm (base ++ [a]) (existing ++ [nm a]) rest

/-- Embedding of `mergeResults`: clone the authoritative result, mark it
`API`, extend the summary, and append the new-named heuristic agencies
and trunked systems. -/
def mergeResults (rr ai : ScanResult) : ScanResult :=
  { source := "API",
    locationName := rr.locationName,
    summary := rr.summary ++ " (Enhanced with AI discovery)",
    agencies := appendNew (fun a => normalizeName a.name) rr.agencies
      (rr.agencies.map (fun a => normalizeName a.name)) ai.agencies,
    trunkedSystems := appendNew (fun s => normalizeName s.name) rr.trunkedSystems
      (rr.trunkedSystems.map (fun s => normalizeName s.name)) ai.trunkedSystems }

theorem appendNew_of_subset (nm : α → String) (ys : List α) :
    ∀ existing base, (∀ a ∈ ys, nm a ∈ existing) →
      appendNew nm base existing ys = base := by
  induction ys with
  | nil => intro existing base _; rfl
  | cons y rest ih =>
    intro existing base h
    have hy : existing.contains (nm y) = true :=
      List.elem_eq_true_of_mem (h y (List.mem_cons_self _ _))
    simp only [appendNew, if_pos hy]
    exact ih existing base (fun a ha => h a (List.mem_cons_of_mem _ ha))

theorem appendNew_split (nm : α → String) (ys : List α) :
    ∀ existing base, ∃ extra,
      appendNew nm base existing ys = base ++ extra ∧
      extra.Sublist ys ∧ ∀ a ∈ extra, nm a ∉ existing := by
  induction ys with
  | nil => intro existing base; exact ⟨[], by simp [appendNew], List.nil_sublist _, by simp⟩
  | cons y rest ih =>
    intro existing base
    by_cases hy : existing.contains (nm y) = true
    · rcases ih existing base with ⟨extra, he, hs, hn⟩
      refine ⟨extra, ?_, hs.cons _, hn⟩
      simp only [appendNew, if_pos hy, he]
    · have hyn : ¬ (existing.contains (nm y) = true) := hy
      rcases ih (existing ++ [nm y]) (base ++ [y]) with ⟨extra, he, hs, hn⟩
      refine ⟨y :: extra, ?_, hs.cons₂ _, ?_⟩
      · simp only [appendNew, if_neg hyn, he, List.append_assoc, List.singleton_append]
      · intro a ha
        rcases List.mem_cons.mp ha with h | h
        · subst h
          intro hc
          exact hyn (List.elem_eq_true_of_mem hc)
        · intro hc
          exact hn a h (List.mem_append_left _ hc)

/-- C3: merging is idempotent on names — when every heuristic agency name
(normalized) already occurs among the authoritative agency names and
every heuristic trunked-system name among the authoritative
trunked-system names, the merged lists equal the authoritative ones — and
in every merge the authoritative entries are preserved unaltered as a
prefix, with only new-named heuristic entries appended after them. -/
theorem C3_merge_preserves (rr ai : ScanResult) :
    ((∀ a ∈ ai.agencies,
        normalizeName a.name ∈ rr.agencies.map (fun x => normalizeName x.name)) →
     (∀ s ∈ ai.trunkedSystems,
        normalizeName s.name ∈ rr.trunkedSystems.map (fun x => normalizeName x.name)) →
     (mergeResults rr ai).agencies = rr.agencies ∧
     (mergeResults rr ai).trunkedSystems = rr.trunkedSystems) ∧
    (∃ extraA extraT,
      (mergeResults rr ai).agencies = rr.agencies ++ extraA ∧
      (mergeResults rr ai).trunkedSystems = rr.trunkedSystems ++ extraT ∧
      extraA.Sublist ai.agencies ∧ extraT.Sublist ai.trunkedSystems ∧
      (∀ a ∈ extraA,
        normalizeName a.name ∉ rr.agencies.map (fun x => normalizeName x.name)) ∧
      (∀ s ∈ extraT,
        normalizeName s.name ∉ rr.trunkedSystems.map (fun x => normalizeName x.name))) := by
  constructor
  · intro ha hs
    exact ⟨appendNew_of_subset _ _ _ _ ha, appendNew_of_subset _ _ _ _ hs⟩
  · rcases appendNew_split (fun a : Agency => normalizeName a.name) ai.agencies
      (rr.agencies.map (fun x => normalizeName x.name)) rr.agencies with
      ⟨extraA, heA, hsA, hnA⟩
    rcases appendNew_split (fun s : TrunkedSystem => normalizeName s.name) ai.trunkedSystems
      (rr.trunkedSystems.map (fun x => normalizeName x.name)) rr.trunkedSystems with
      ⟨extraT, heT, hsT, hnT⟩
    exact ⟨extraA, extraT, heA, heT, hsA, hsT, hnA, hnT⟩

/-- Witness for C3: an AI result whose entries differ only in punctuation
and case from the authoritative ones adds nothing. -/
theorem C3_merge_preserves_witness :
    (mergeResults
      { agencies := [{ name := "Police Dept" }], trunkedSystems := [{ name := "UCA" }] }
      { agencies := [{ name := "POLICE-DEPT" }],
        trunkedSystems := [{ name := "U.C.A." }] }).agencies =
      [{ name := "Police Dept" }] ∧
    (mergeResults
      { agencies := [{ name := "Police Dept" }], trunkedSystems := [{ name := "UCA" }] }
      { agencies := [{ name := "POLICE-DEPT" }],
        trunkedSystems := [{ name := "U.C.A." }] }).trunkedSystems =
      [{ name := "UCA" }] :=
  (C3_merge_preserves
    { agencies := [{ name := "Police Dept" }], trunkedSystems := [{ name := "UCA" }] }
    { agencies := [{ name := "POLICE-DEPT" }],
      trunkedSystems := [{ name := "U.C.A." }] }).1 (by decide) (by decide)
/-! ## C7 — Service-Type Filter (src/services/geminiService.ts,
`filterDataByServices` lines 311–346 and `isCategoryAllowed`
lines 362–446) -/

/-- Embedding of `isCategoryAllowed`: ordered keyword blocks, one per
possibly-selected service, falling through to a direct substring check of
each selected service name. -/
def isCategoryAllowed (category : String) (allowedSet : List String) : Bool :=
  let c := jsToLower category
  if allowedSet.contains "police" &&
      (jsIncludes c "law" || jsIncludes c "police" || jsIncludes c "sheriff" ||
       jsIncludes c "patrol" || jsIncludes c "trooper" || jsIncludes c "marshal" ||
       jsIncludes c "constable" || jsIncludes c "detective" || jsIncludes c "fbi" ||
       jsIncludes c "dea" || jsIncludes c "atf") then true
  else if allowedSet.contains "fire" &&
      (jsIncludes c "fire" || jsIncludes c "rescue" || jsIncludes c "engine" ||
       jsIncludes c "ladder" || jsIncludes c "battalion" || jsIncludes c "hazmat") then true
  else if allowedSet.contains "ems" &&
      (jsIncludes c "ems" || jsIncludes c "medic" || jsIncludes c "ambulance" ||
       jsIncludes c "hospital" || jsIncludes c "paramedic" || jsIncludes c "life flight" ||
       jsIncludes c "rescue") then true
  else if allowedSet.contains "ham radio" &&
      (jsIncludes c "ham" || jsIncludes c "amateur" || jsIncludes c "repeater" ||
       jsIncludes c "ares" || jsIncludes c "races" || jsIncludes c "skywarn") then true
  else if allowedSet.contains "railroad" &&
      (jsIncludes c "rail" || jsIncludes c "train" || jsIncludes c "locomotive" ||
       jsIncludes c "yard" || jsIncludes c "conductor" || jsIncludes c "union pacific" ||
       jsIncludes c "bnsf" || jsIncludes c "csx" || jsIncludes c "amtrak") then true
  else if allowedSet.contains "air" &&
      (jsIncludes c "air" || jsIncludes c "aviation" || jsIncludes c "control tower" ||
       jsIncludes c "approach" || jsIncludes c "departure" || jsIncludes c "ground" ||
       jsIncludes c "unicom" || jsIncludes c "airport" || jsIncludes c "pilot") then true
  else if allowedSet.contains "marine" &&
      (jsIncludes c "marine" || jsIncludes c "coast" || jsIncludes c "boat" ||
       jsIncludes c "ship" || jsIncludes c "vessel" || jsIncludes c "port" ||
       jsIncludes c "harbor" || jsIncludes c "marina") then true
  else if allowedSet.contains "federal" &&
      (jsIncludes c "federal" || jsIncludes c "fed" || jsIncludes c "govt" ||
       jsIncludes c "government" || jsIncludes c "us " || jsIncludes c "u.s." ||
       jsIncludes c "forest service" || jsIncludes c "park service" ||
       jsIncludes c "blm" || jsIncludes c "fbi" || jsIncludes c "tsa" ||
       jsIncludes c "customs" || jsIncludes c "border patrol" ||
       jsIncludes c "ice " || jsIncludes c "dhs") then true
  else if allowedSet.contains "military" &&
      (jsIncludes c "military" || jsIncludes c "army" || jsIncludes c "navy" ||
       jsIncludes c "air force" || jsIncludes c "marines" || jsIncludes c "coast guard" ||
       jsIncludes c "national guard" || jsIncludes c "base" || jsIncludes c "fort" ||
       jsIncludes c "camp " || jsIncludes c "afb" || jsIncludes c "defense" ||
       jsIncludes c "squadron" || jsIncludes c "wing") then true
  else if allowedSet.contains "public works" &&
      (jsIncludes c "public works" || jsIncludes c "dpw" || jsIncludes c "street" ||
       jsIncludes c "road" || jsIncludes c "highway" || jsIncludes c "transportation" ||
       jsIncludes c "dot " || jsIncludes c "sanitation" || jsIncludes c "garbage" ||
       jsIncludes c "trash" || jsIncludes c "recycling" || jsIncludes c "water" ||
       jsIncludes c "sewer" || jsIncludes c "utility" || jsIncludes c "engineering" ||
       jsIncludes c "maintenance") then true
  else if allowedSet.contains "utilities" &&
      (jsIncludes c "utilit" || jsIncludes c "power" || jsIncludes c "electric" ||
       jsIncludes c "gas" || jsIncludes c "energy" || jsIncludes c "water" ||
       jsIncludes c "sewer" || jsIncludes c "cable" || jsIncludes c "internet" ||
       jsIncludes c "phone") then true
  else if allowedSet.contains "transportation" &&
      (jsIncludes c "transport" || jsIncludes c "transit" || jsIncludes c "bus" ||
       jsIncludes c "taxi" || jsIncludes c "shuttle" || jsIncludes c "metro" ||
       jsIncludes c "subway" || jsIncludes c "airport" || jsIncludes c "uber" ||
       jsIncludes c "lyft" || jsIncludes c "limo") then true
  else if allowedSet.contains "business" &&
      (jsIncludes c "business" || jsIncludes c "commercial" || jsIncludes c "mall" ||
       jsIncludes c "store" || jsIncludes c "shop" || jsIncludes c "factory" ||
       jsIncludes c "plant" || jsIncludes c "warehouse" || jsIncludes c "hotel" ||
       jsIncludes c "motel" || jsIncludes c "casino" || jsIncludes c "resort" ||
       jsIncludes c "logistics" || jsIncludes c "security") then true
  else if allowedSet.contains "hospitals" &&
      (jsIncludes c "hospital" || jsIncludes c "medical" || jsIncludes c "clinic" ||
       jsIncludes c "center" || jsIncludes c "health" || jsIncludes c "care" ||
       jsIncludes c "nursing" || jsIncludes c "trauma" || jsIncludes c "er " ||
       jsIncludes c "emergency room") then true
  else if allowedSet.contains "schools" &&
      (jsIncludes c "school" || jsIncludes c "university" || jsIncludes c "college" ||
       jsIncludes c "campus" || jsIncludes c "district" || jsIncludes c "education" ||
       jsIncludes c "academy" || jsIncludes c "student" || jsIncludes c "faculty" ||
       jsIncludes c "bus barn") then true
  else if allowedSet.contains "corrections" &&
      (jsIncludes c "correction" || jsIncludes c "prison" || jsIncludes c "jail" ||
       jsIncludes c "detention" || jsIncludes c "penitentiary" || jsIncludes c "warden" ||
       jsIncludes c "inmate" || jsIncludes c "justice center") then true
  else if allowedSet.contains "security" &&
      (jsIncludes c "security" || jsIncludes c "patrol" || jsIncludes c "guard" ||
       jsIncludes c "protection" || jsIncludes c "loss prevention" ||
       jsIncludes c "safety") then true
  else if allowedSet.contains "multi-dispatch" &&
      (jsIncludes c "dispatch" || jsIncludes c "communication" || jsIncludes c "911" ||
       jsIncludes c "center" || jsIncludes c "interop") then true
  else allowedSet.any (fun allowed => jsIncludes c allowed)

/-- Embedding of `filterDataByServices` on a non-null result: deep-copy
(value semantics), drop agencies whose category fails the keyword match,
keep every trunked system but filter its talkgroup list by tag (falling
back to the description when the tag is empty). -/
def filterDataByServices (data : ScanResult) (services : List String) : ScanResult :=
  let allowedcats := services.map (fun s => jsToLower s)
  { data with
    agencies := data.agencies.filter
      (fun agency => isCategoryAllowed (jsToLower agency.category) allowedcats),
    trunkedSystems := data.trunkedSystems.map (fun sys =>
      { sys with talkgroups := sys.talkgroups.filter (fun tg =>
          isCategoryAllowed
            (jsToLower (if tg.tag = "" then tg.description else tg.tag)) allowedcats) }) }

theorem filter_idem (p : α → Bool) (l : List α) :
    (l.filter p).filter p = l.filter p := by
  simp [List.filter_filter]

/-- C7: service-type filtering is idempotent — filtering an
already-filtered result by the same service set returns an identical
result.  (The claim's purity half — the input is never mutated — holds by
construction in this embedding, where the function is pure and the
JavaScript deep copy is value copying.) -/
theorem C7_filter_idempotent (data : ScanResult) (services : List String) :
    filterDataByServices (filterDataByServices data services) services =
      filterDataByServices data services := by
  cases data with
  | mk src loc summ ags trs =>
    simp only [filterDataByServices]
    congr 1
    · exact filter_idem _ _
    · rw [List.map_map]
      apply List.map_congr_left
      intro sys _
      cases sys with
      | mk n t lo fr tg =>
        simp [filter_idem]
/-! ## C5 — Cache write policy (src/services/geminiService.ts,
`searchFrequencies` lines 178–221 and `saveToCache` lines 79–90) -/

/-- Embedding of the post-fetch core of `searchFrequencies`: merge the
two source results (both / one / none, with the cache as last-resort
backup on total failure), perform the write-through cache save only when
the master record is non-empty, and return the service-filtered view.
The returned pair is (filtered result, cache write performed). -/
def searchFrequenciesCore (rr ai cachedBackup : Option ScanResult)
    (services : List String) :
    Except String (Option ScanResult × Option ScanResult) :=
  match rr, ai with
  | some r, some a =>
    let m := mergeResults r a
    Except.ok (some (filterDataByServices m services),
      if m.agencies.length > 0 ∨ m.trunkedSystems.length > 0 then some m else none)
  | some r, none =>
    Except.ok (some (filterDataByServices r services),
      if r.agencies.length > 0 ∨ r.trunkedSystems.length > 0 then some r else none)
  | none, some a =>
    Except.ok (some (filterDataByServices a services),
      if a.agencies.length > 0 ∨ a.trunkedSystems.length > 0 then some a else none)
  | none, none =>
    match cachedBackup with
    | some c => Except.ok (some (filterDataByServices c services), none)
    | none => Except.error "Unable to retrieve frequency data from any source."

/-- C5: the cache never stores an empty result — whenever the pipeline
performs a cache write `w`, the written master record has at least one
agency or at least one trunked system; when both lists are empty (or the
result came from the cache backup path) no write occurs. -/
theorem C5_never_cache_empty (rr ai cached : Option ScanResult)
    (services : List String) (res : Option ScanResult) (w : ScanResult)
    (h : searchFrequenciesCore rr ai cached services = Except.ok (res, some w)) :
    w.agencies ≠ [] ∨ w.trunkedSystems ≠ [] := by
  rcases rr with _ | r <;> rcases ai with _ | a
  · rcases cached with _ | c <;> simp [searchFrequenciesCore] at h
  all_goals {
    simp only [searchFrequenciesCore, Except.ok.injEq, Prod.mk.injEq] at h
    rcases h with ⟨_, hw⟩
    split at hw
    next hcond =>
      cases hw
      rcases hcond with hc | hc
      · exact Or.inl (by intro hnil; rw [hnil] at hc; simp at hc)
      · exact Or.inr (by intro hnil; rw [hnil] at hc; simp at hc)
    next => exact absurd hw (by simp)
  }

/-- Witness for C5: an authoritative-only fetch with one agency is
written to the cache, and the written record is non-empty. -/
theorem C5_never_cache_empty_witness :
    ({ agencies := [{ name := "A" }] } : ScanResult).agencies ≠ [] ∨
    ({ agencies := [{ name := "A" }] } : ScanResult).trunkedSystems ≠ [] :=
  C5_never_cache_empty (some { agencies := [{ name := "A" }] }) none none []
    (some (filterDataByServices { agencies := [{ name := "A" }] } []))
    { agencies := [{ name := "A" }] } rfl
/-! ## C6 — Cache read / stale-schema detection
(src/services/geminiService.ts, `getFromCache` lines 9–77; the stored
`result_data` JSON is modelled by `CachedPayload`, whose possibly-absent
fields are `Option`s) -/

/-- A trunked system as stored in a (possibly legacy) cache payload: its
`frequencies` field may be absent. -/
structure CachedTrs where
  name : String := ""
  frequencies : Option (List TrsFreq) := none
deriving DecidableEq, Repr

structure CachedScan where
  source : String := ""
  trunkedSystems : Option (List CachedTrs) := none
deriving DecidableEq, Repr

structure CachedLoc where
  data : Option CachedScan := none
deriving DecidableEq, Repr

structure CachedPayload where
  source : String := ""
  trunkedSystems : Option (List CachedTrs) := none
  locations : Option (List CachedLoc) := none
deriving DecidableEq, Repr

/-- Embedding of the stale-cache detection of `getFromCache` (lines
29–44): a payload is stale when any directly stored trunked system, or
any trunked system inside a trip location's `data`, lacks its
`frequencies` field. -/
def isStalePayload (r : CachedPayload) : Bool :=
  (match r.trunkedSystems with
   | some l => l.any (fun s => s.frequencies.isNone)
   | none => false) ||
  (match r.locations with
   | some ll => ll.any (fun loc =>
      match loc.data with
      | some d =>
        match d.trunkedSystems with
        | some l => l.any (fun s => s.frequencies.isNone)
        | none => false
      | none => false)
   | none => false)

def repairTrsList (l : List CachedTrs) : List CachedTrs :=
  l.map (fun s => { s with frequencies := some (s.frequencies.getD []) })

def stampAndRepair (r : CachedPayload) : CachedPayload :=
  { source := if r.source ≠ "API" then "Cache" else r.source,
    trunkedSystems := r.trunkedSystems.map repairTrsList,
    locations := r.locations.map (fun ll => ll.map (fun loc =>
      { data := loc.data.map (fun d =>
          { source := if d.source ≠ "API" then "Cache" else d.source,
            trunkedSystems := d.trunkedSystems.map repairTrsList }) })) }

/-- Embedding of the pure core of `getFromCache`: reject AI-sourced
entries when authoritative credentials are supplied, reject stale-schema
entries, otherwise stamp the provenance as `Cache` (unless authoritative)
and repair missing frequency arrays. -/
def getFromCacheModel (row : Option CachedPayload) (hasRRCreds : Bool) :
    Option CachedPayload :=
  match row with
  | none => none
  | some r =>
    if r.source = "AI" ∧ hasRRCreds then none
    else if isStalePayload r then none
    else some (stampAndRepair r)

/-- C6: a stale-schema cache entry is never served — if the stored
payload contains any trunked system with an absent `frequencies` field,
directly or inside any trip location's data, the read returns `none`. -/
theorem C6_stale_never_served (r : CachedPayload) (creds : Bool)
    (h : (∃ l, r.trunkedSystems = some l ∧ ∃ s ∈ l, s.frequencies = none) ∨
         (∃ ll, r.locations = some ll ∧ ∃ loc ∈ ll, ∃ d, loc.data = some d ∧
            ∃ l, d.trunkedSystems = some l ∧ ∃ s ∈ l, s.frequencies = none)) :
    getFromCacheModel (some r) creds = none := by
  have hst : isStalePayload r = true := by
    rcases h with ⟨l, hl, s, hs, hf⟩ | ⟨ll, hll, loc, hloc, d, hd, l, hl, s, hs, hf⟩
    · refine Bool.or_eq_true_iff.mpr (Or.inl ?_)
      rw [hl]
      exact List.any_eq_true.mpr ⟨s, hs, by simp [hf]⟩
    · refine Bool.or_eq_true_iff.mpr (Or.inr ?_)
      rw [hll]
      refine List.any_eq_true.mpr ⟨loc, hloc, ?_⟩
      simp only [hd, hl]
      exact List.any_eq_true.mpr ⟨s, hs, by simp [hf]⟩
  by_cases hq : (r.source = "AI" ∧ creds = true)
  · simp [getFromCacheModel, hq]
  · simp [getFromCacheModel, hq, hst]

/-- Witness for C6: a payload with one legacy trunked system is a
cache miss. -/
theorem C6_stale_never_served_witness :
    (∃ l, ({ trunkedSystems := some [{ name := "S" }] } : CachedPayload).trunkedSystems
        = some l ∧ ∃ s ∈ l, s.frequencies = none) ∧
    getFromCacheModel (some { trunkedSystems := some [{ name := "S" }] }) false = none := by
  have hyp : (∃ l, ({ trunkedSystems := some [{ name := "S" }] } : CachedPayload).trunkedSystems
        = some l ∧ ∃ s ∈ l, s.frequencies = none) :=
    ⟨[{ name := "S" }], rfl, { name := "S" }, List.mem_singleton.mpr rfl, rfl⟩
  exact ⟨hyp, C6_stale_never_served _ false (Or.inl hyp)⟩

/-! ## C1 — Markup Extractor (src/unnamed/part_001 and src/api/rrdb.ts,
`getItems` lines 80–110).  The extractor is embedded at the string level:
`splitTagsAux` models `xml.split(/(<\/?item[^>]*>)/)` (leftmost
non-overlapping matches, delimiters kept, case-sensitive, as in the
source), `isOpenItemPart`/`isCloseItemPart` model the per-part regex
tests `/<item[^\/][^>]*>/i || part === '<item>'` and `/<\/item>/i`, and
`getItemsLoop` is the depth-tracking loop.  Strings are worked with as
`List Char` (`String.data`); `getItems` converts at the boundary. -/

/-- Scan to the first `>` (the `[^>]*>` tail of the split pattern):
returns the chars before it and the chars after it. -/
def scanGt : List Char → Option (List Char × List Char)
  | [] => none
  | c :: rest =>
    if c = '>' then some ([], rest)
    else (scanGt rest).map (fun p => (c :: p.1, p.2))

theorem scanGt_length : ∀ {r2 attrs after : List Char},
    scanGt r2 = some (attrs, after) → after.length < r2.length := by
  intro r2
  induction r2 with
  | nil => intro attrs after h; exact Option.noConfusion h
  | cons c rest ih =>
    intro attrs after h
    simp only [scanGt] at h
    by_cases hc : c = '>'
    · rw [if_pos hc] at h
      injection h with h'
      injection h' with h1 h2
      subst h2
      simp
    · rw [if_neg hc] at h
      cases hg : scanGt rest with
      | none => rw [hg] at h; exact Option.noConfusion h
      | some p =>
        rw [hg] at h
        simp only [Option.map_some'] at h
        injection h with h'
        injection h' with h1 h2
        subst h2
        have := ih (by rw [hg])
        simp only [List.length_cons]
        omega

/-- Match of the split pattern `<\/?item[^>]*>` anchored at the start of
the input: the optional slash, the literal (case-sensitive) `item`, any
run of non-`>` characters, then `>`.  Returns the matched delimiter and
the remaining input. -/
def matchTagAt : List Char → Option (List Char × List Char)
  | '<' :: '/' :: 'i' :: 't' :: 'e' :: 'm' :: r2 =>
    (scanGt r2).map (fun p =>
      ('<' :: '/' :: 'i' :: 't' :: 'e' :: 'm' :: (p.1 ++ ['>']), p.2))
  | '<' :: 'i' :: 't' :: 'e' :: 'm' :: r2 =>
    (scanGt r2).map (fun p =>
      ('<' :: 'i' :: 't' :: 'e' :: 'm' :: (p.1 ++ ['>']), p.2))
  | _ => none

theorem matchTagAt_length {cs tag after : List Char}
    (h : matchTagAt cs = some (tag, after)) : after.length < cs.length := by
  unfold matchTagAt at h
  split at h
  · cases hg : scanGt _ with
    | none =>
      rename_i r2
      rw [hg] at h; exact Option.noConfusion h
    | some p =>
      rename_i r2
      rw [hg] at h
      simp only [Option.map_some'] at h
      injection h with h'
      injection h' with h1 h2
      subst h2
      have := scanGt_length hg
      simp only [List.length_cons]
      omega
  · cases hg : scanGt _ with
    | none =>
      rename_i r2
      rw [hg] at h; exact Option.noConfusion h
    | some p =>
      rename_i r2
      rw [hg] at h
      simp only [Option.map_some'] at h
      injection h with h'
      injection h' with h1 h2
      subst h2
      have := scanGt_length hg
      simp only [List.length_cons]
      omega
  · exact Option.noConfusion h

/-- Embedding of `xml.split(/(<\/?item[^>]*>)/)`: scan left to right; at
each `<` try the delimiter pattern; on a match emit the pending text and
the delimiter, else keep scanning.  Like the JavaScript split, empty text
parts appear between adjacent delimiters and at the ends. -/
def splitTagsAux : List Char → List Char → List (List Char)
  | [], acc => [acc.reverse]
  | c :: rest, acc =>
    if c = '<' then
      match hm : matchTagAt (c :: rest) with
      | some (tag, after) => acc.reverse :: tag :: splitTagsAux after []
      | none => splitTagsAux rest (c :: acc)
    else splitTagsAux rest (c :: acc)
termination_by cs _ => cs.length
decreasing_by
  · exact matchTagAt_length hm
  · simp
  · simp


/-- Case-insensitive letter test used by the `/i` part tests. -/
def ciIs (c lo hi : Char) : Bool := c = lo || c = hi

/-- Match of `/<item[^\/][^>]*>/i` anchored at the start: `<item`
(case-insensitive), one character that is not `/`, then a `>` later. -/
def openPatAt : List Char → Bool
  | '<' :: i :: t :: e :: m :: x :: rest =>
    ciIs i 'i' 'I' && ciIs t 't' 'T' && ciIs e 'e' 'E' && ciIs m 'm' 'M' &&
    !(x = '/') && rest.contains '>'
  | _ => false

/-- Search for the open-item pattern anywhere in a part
(`part.match(/<item[^\/][^>]*>/i)`). -/
def hasOpenItemTag : List Char → Bool
  | [] => false
  | c :: rest => openPatAt (c :: rest) || hasOpenItemTag rest

/-- The source's opening-tag test:
`part.match(/<item[^\/][^>]*>/i) || part === '<item>'`. -/
def isOpenItemPart (part : List Char) : Bool :=
  hasOpenItemTag part || part = "<item>".data

/-- Match of `/<\/item>/i` anchored at the start. -/
def closePatAt : List Char → Bool
  | '<' :: '/' :: i :: t :: e :: m :: '>' :: _ =>
    ciIs i 'i' 'I' && ciIs t 't' 'T' && ciIs e 'e' 'E' && ciIs m 'm' 'M'
  | _ => false

/-- The source's closing-tag test: `part.match(/<\/item>/i)`. -/
def isCloseItemPart : List Char → Bool
  | [] => false
  | c :: rest => closePatAt (c :: rest) || isCloseItemPart rest

/-- Embedding of the `for (const part of lines)` loop of `getItems`:
increment depth on each opening part (resetting capture at depth 1),
decrement on each closing part (emitting the capture when depth returns
to 0), and append every other part to the capture while inside an item.
The JavaScript number `depth` is an `Int` (a stray closing tag drives it
negative). -/
def getItemsLoop : List (List Char) → Int → List Char → Bool → List (List Char) → List (List Char)
  | [], _, _, _, results => results
  | part :: rest, depth, currentItem, inItem, results =>
    let d1 := if isOpenItemPart part then depth + 1 else depth
    if isOpenItemPart part ∧ d1 = 1 then
      getItemsLoop rest d1 [] true results
    else
      let d2 := if isCloseItemPart part then d1 - 1 else d1
      if isCloseItemPart part ∧ d2 = 0 ∧ inItem then
        getItemsLoop rest d2 currentItem false (results ++ [currentItem])
      else if inItem then
        getItemsLoop rest d2 (currentItem ++ part) inItem results
      else
        getItemsLoop rest d2 currentItem inItem results

/-- Embedding of `getItems` (src/unnamed/part_001 lines 80–110): split on
item-tag delimiters, then run the depth-tracking loop. -/
def getItems (xml : String) : List String :=
  (getItemsLoop (splitTagsAux xml.data []) 0 [] false []).map (fun l => String.mk l)


/-- Grammar of markup regions for the extractor claims: a region is a
sequence of text pieces and (arbitrarily nested) `<item>` groups. -/
inductive MDoc where
  | nil : MDoc
  | txt : List Char → MDoc → MDoc
  | item : MDoc → MDoc → MDoc

/-- Render a region back to its markup text. -/
def renderM : MDoc → List Char
  | .nil => []
  | .txt s rest => s ++ renderM rest
  | .item c rest => "<item>".data ++ (renderM c ++ ("</item>".data ++ renderM rest))

/-- The top-level `<item>` groups of a region, each with its full inner
markup (nested groups intact). -/
def topItemsM : MDoc → List (List Char)
  | .nil => []
  | .txt _ rest => topItemsM rest
  | .item c rest => renderM c :: topItemsM rest

/-- Well-formedness of a region for the extractor: text pieces contain no
`<` (so every `<` in the rendered document belongs to an item tag). -/
def cleanDoc : MDoc → Bool
  | .nil => true
  | .txt s rest => !(s.contains '<') && cleanDoc rest
  | .item c rest => cleanDoc c && cleanDoc rest

/-- The parts the splitter emits for a region, given the pending
(reversed) text accumulated so far: the first component is the emitted
parts, the second the pending text at the end of the region. -/
def eparts : MDoc → List Char → List (List Char) × List Char
  | .nil, acc => ([], acc)
  | .txt s rest, acc => eparts rest (s.reverse ++ acc)
  | .item c rest, acc =>
    let pc := eparts c []
    let pr := eparts rest []
    (acc.reverse :: "<item>".data ::
      (pc.1 ++ pc.2.reverse :: "</item>".data :: pr.1), pr.2)

theorem splitTagsAux_text {s : List Char} (hs : ∀ c ∈ s, c ≠ '<') :
    ∀ (cs acc : List Char), splitTagsAux (s ++ cs) acc = splitTagsAux cs (s.reverse ++ acc) := by
  induction s with
  | nil => intro cs acc; simp
  | cons c s' ih =>
    intro cs acc
    have hc : c ≠ '<' := hs c (List.mem_cons_self _ _)
    rw [List.cons_append, splitTagsAux]
    rw [if_neg hc]
    rw [ih (fun x hx => hs x (List.mem_cons_of_mem _ hx)) cs (c :: acc)]
    simp

theorem splitTagsAux_open (r acc : List Char) :
    splitTagsAux ("<item>".data ++ r) acc =
      acc.reverse :: "<item>".data :: splitTagsAux r [] := by
  rw [show ("<item>".data ++ r) = '<' :: ('i' :: 't' :: 'e' :: 'm' :: '>' :: r) from rfl]
  rw [splitTagsAux]
  rw [if_pos rfl]
  have hm : matchTagAt ('<' :: ('i' :: 't' :: 'e' :: 'm' :: '>' :: r)) = some ("<item>".data, r) := by
    simp [matchTagAt, scanGt]
  split
  next tag after heq =>
    rw [hm] at heq
    injection heq with h'
    injection h' with h1 h2
    rw [h1, h2]
  next heq =>
    rw [hm] at heq
    exact Option.noConfusion heq

theorem splitTagsAux_close (r acc : List Char) :
    splitTagsAux ("</item>".data ++ r) acc =
      acc.reverse :: "</item>".data :: splitTagsAux r [] := by
  rw [show ("</item>".data ++ r) = '<' :: ('/' :: 'i' :: 't' :: 'e' :: 'm' :: '>' :: r) from rfl]
  rw [splitTagsAux]
  rw [if_pos rfl]
  have hm : matchTagAt ('<' :: ('/' :: 'i' :: 't' :: 'e' :: 'm' :: '>' :: r)) =
      some ("</item>".data, r) := by
    simp [matchTagAt, scanGt]
  split
  next tag after heq =>
    rw [hm] at heq
    injection heq with h'
    injection h' with h1 h2
    rw [h1, h2]
  next heq =>
    rw [hm] at heq
    exact Option.noConfusion heq

theorem contains_false_forall {s : List Char} (h : s.contains '<' = false) :
    ∀ c ∈ s, c ≠ '<' := by
  intro c hc he
  subst he
  have hn : '<' ∉ s := by simpa using h
  exact hn hc

theorem split_render (d : MDoc) (hd : cleanDoc d = true) :
    ∀ (acc suffix : List Char),
      splitTagsAux (renderM d ++ suffix) acc =
        (eparts d acc).1 ++ splitTagsAux suffix (eparts d acc).2 := by
  induction d with
  | nil =>
    intro acc suffix
    simp [renderM, eparts]
  | txt s rest ih =>
    intro acc suffix
    simp only [cleanDoc, Bool.and_eq_true, Bool.not_eq_true'] at hd
    rw [renderM, eparts, List.append_assoc,
      splitTagsAux_text (contains_false_forall hd.1)]
    exact ih hd.2 _ _
  | item c rest ihc ihr =>
    intro acc suffix
    simp only [cleanDoc, Bool.and_eq_true] at hd
    rw [renderM]
    simp only [List.append_assoc]
    rw [splitTagsAux_open]
    rw [ihc hd.1 [] ("</item>".data ++ (renderM rest ++ suffix))]
    rw [splitTagsAux_close]
    rw [ihr hd.2 [] suffix]
    simp [eparts]

theorem openPatAt_not_lt {c : Char} (hc : c ≠ '<') (l : List Char) :
    openPatAt (c :: l) = false := by
  rcases l with _ | ⟨c1, _ | ⟨c2, _ | ⟨c3, _ | ⟨c4, _ | ⟨x, rest⟩⟩⟩⟩⟩ <;>
    simp [openPatAt, hc]

theorem closePatAt_not_lt {c : Char} (hc : c ≠ '<') (l : List Char) :
    closePatAt (c :: l) = false := by
  rcases l with _ | ⟨c1, _ | ⟨c2, _ | ⟨c3, _ | ⟨c4, _ | ⟨c5, _ | ⟨c6, rest⟩⟩⟩⟩⟩⟩ <;>
    simp [closePatAt, hc]

theorem clean_not_open {part : List Char} (h : ∀ c ∈ part, c ≠ '<') :
    isOpenItemPart part = false := by
  have ho : hasOpenItemTag part = false := by
    induction part with
    | nil => rfl
    | cons c rest ih =>
      rw [hasOpenItemTag]
      rw [openPatAt_not_lt (h c (List.mem_cons_self _ _))]
      rw [ih (fun x hx => h x (List.mem_cons_of_mem _ hx))]
      rfl
  have hne : ¬ (part = "<item>".data) := by
    intro he
    exact h '<' (he ▸ (by decide : '<' ∈ "<item>".data)) rfl
  simp [isOpenItemPart, ho, hne]

theorem clean_not_close {part : List Char} (h : ∀ c ∈ part, c ≠ '<') :
    isCloseItemPart part = false := by
  induction part with
  | nil => rfl
  | cons c rest ih =>
    rw [isCloseItemPart]
    rw [closePatAt_not_lt (h c (List.mem_cons_self _ _))]
    rw [ih (fun x hx => h x (List.mem_cons_of_mem _ hx))]
    rfl

theorem open_tag_classify :
    isOpenItemPart "<item>".data = true ∧ isCloseItemPart "<item>".data = false := by
  decide

theorem close_tag_classify :
    isOpenItemPart "</item>".data = false ∧ isCloseItemPart "</item>".data = true := by
  decide

theorem eparts_snd_clean (d : MDoc) :
    ∀ acc, cleanDoc d = true → (∀ c ∈ acc, c ≠ '<') →
      ∀ c ∈ (eparts d acc).2, c ≠ '<' := by
  induction d with
  | nil => intro acc _ hacc; exact hacc
  | txt s rest ih =>
    intro acc hd hacc
    simp only [cleanDoc, Bool.and_eq_true, Bool.not_eq_true'] at hd
    refine ih _ hd.2 ?_
    intro c hc
    rcases List.mem_append.mp hc with h | h
    · exact contains_false_forall hd.1 c (List.mem_reverse.mp h)
    · exact hacc c h
  | item c rest ihc ihr =>
    intro acc hd hacc
    simp only [cleanDoc, Bool.and_eq_true] at hd
    simp only [eparts]
    exact ihr [] hd.2 (by simp)

theorem eparts_flatten (d : MDoc) : ∀ acc,
    ((eparts d acc).1).flatten ++ (eparts d acc).2.reverse =
      acc.reverse ++ renderM d := by
  induction d with
  | nil => intro acc; simp [eparts, renderM]
  | txt s rest ih =>
    intro acc
    rw [eparts, renderM, ih (s.reverse ++ acc)]
    simp [List.append_assoc]
  | item c rest ihc ihr =>
    intro acc
    have hc : ∀ X, ((eparts c []).1).flatten ++ ((eparts c []).2.reverse ++ X) =
        renderM c ++ X := by
      intro X
      rw [← List.append_assoc, ihc []]
      simp
    have hr : ∀ X, ((eparts rest []).1).flatten ++ ((eparts rest []).2.reverse ++ X) =
        renderM rest ++ X := by
      intro X
      rw [← List.append_assoc, ihr []]
      simp
    simp only [eparts, renderM, List.flatten_cons, List.flatten_append,
      List.append_assoc]
    rw [hc]
    rw [show (eparts rest []).1.flatten ++ (eparts rest []).2.reverse = renderM rest by
      simpa using ihr []]

theorem loop_step_text {part : List Char}
    (hO : isOpenItemPart part = false) (hC : isCloseItemPart part = false)
    (rest : List (List Char)) (depth : Int) (cur : List Char) (inIt : Bool)
    (res : List (List Char)) :
    getItemsLoop (part :: rest) depth cur inIt res =
      if inIt then getItemsLoop rest depth (cur ++ part) inIt res
      else getItemsLoop rest depth cur inIt res := by
  rw [getItemsLoop]
  simp [hO, hC]

theorem loop_step_open_deep {depth : Int} (h : 1 ≤ depth)
    (rest : List (List Char)) (cur : List Char) (res : List (List Char)) :
    getItemsLoop ("<item>".data :: rest) depth cur true res =
      getItemsLoop rest (depth + 1) (cur ++ "<item>".data) true res := by
  rw [getItemsLoop]
  have h1 : isOpenItemPart "<item>".data = true := open_tag_classify.1
  have h2 : isCloseItemPart "<item>".data = false := open_tag_classify.2
  simp only [h1, h2, if_pos rfl, if_true]
  rw [if_neg (by simp; omega)]
  simp

theorem loop_step_open_zero (rest : List (List Char)) (cur : List Char)
    (inIt : Bool) (res : List (List Char)) :
    getItemsLoop ("<item>".data :: rest) 0 cur inIt res =
      getItemsLoop rest 1 [] true res := by
  rw [getItemsLoop]
  have h1 : isOpenItemPart "<item>".data = true := open_tag_classify.1
  simp [h1]

theorem loop_step_close_deep {depth : Int} (h : 2 ≤ depth)
    (rest : List (List Char)) (cur : List Char) (res : List (List Char)) :
    getItemsLoop ("</item>".data :: rest) depth cur true res =
      getItemsLoop rest (depth - 1) (cur ++ "</item>".data) true res := by
  rw [getItemsLoop]
  have h1 : isOpenItemPart "</item>".data = false := close_tag_classify.1
  have h2 : isCloseItemPart "</item>".data = true := close_tag_classify.2
  simp only [h1, h2]
  rw [if_neg (by simp)]
  rw [if_neg (by simp; omega)]
  simp

theorem loop_step_close_one (rest : List (List Char)) (cur : List Char)
    (res : List (List Char)) :
    getItemsLoop ("</item>".data :: rest) 1 cur true res =
      getItemsLoop rest 0 cur false (res ++ [cur]) := by
  rw [getItemsLoop]
  have h1 : isOpenItemPart "</item>".data = false := close_tag_classify.1
  have h2 : isCloseItemPart "</item>".data = true := close_tag_classify.2
  simp only [h1, h2]
  rw [if_neg (by simp)]
  rw [if_pos (by simp)]
  simp

theorem loop_inside (d : MDoc) : ∀ (acc : List Char) (K : List (List Char))
    (depth : Int) (cur : List Char) (res : List (List Char)),
    cleanDoc d = true → (∀ ch ∈ acc, ch ≠ '<') → 1 ≤ depth →
    getItemsLoop ((eparts d acc).1 ++ K) depth cur true res =
      getItemsLoop K depth (cur ++ ((eparts d acc).1).flatten) true res := by
  induction d with
  | nil => intro acc K depth cur res _ _ _; simp [eparts]
  | txt s rest ih =>
    intro acc K depth cur res hd hacc hdep
    simp only [cleanDoc, Bool.and_eq_true, Bool.not_eq_true'] at hd
    rw [eparts]
    refine ih _ K depth cur res hd.2 ?_ hdep
    intro ch hch
    rcases List.mem_append.mp hch with h | h
    · exact contains_false_forall hd.1 ch (List.mem_reverse.mp h)
    · exact hacc ch h
  | item c rest ihc ihr =>
    intro acc K depth cur res hd hacc hdep
    simp only [cleanDoc, Bool.and_eq_true] at hd
    simp only [eparts, List.cons_append, List.append_assoc, List.cons_append]
    rw [loop_step_text (clean_not_open (fun ch hch => hacc ch (List.mem_reverse.mp hch)))
      (clean_not_close (fun ch hch => hacc ch (List.mem_reverse.mp hch)))]
    rw [if_pos rfl]
    rw [loop_step_open_deep hdep]
    rw [ihc [] _ (depth + 1) _ res hd.1 (by simp) (by omega)]
    have hpend := eparts_snd_clean c [] hd.1 (by simp)
    rw [loop_step_text (clean_not_open (fun ch hch => hpend ch (List.mem_reverse.mp hch)))
      (clean_not_close (fun ch hch => hpend ch (List.mem_reverse.mp hch)))]
    rw [if_pos rfl]
    rw [loop_step_close_deep (by omega)]
    have hstep : depth + 1 - 1 = depth := by omega
    rw [hstep]
    rw [ihr [] K depth _ res hd.2 (by simp) hdep]
    simp [List.flatten_cons, List.flatten_append, List.append_assoc]

theorem loop_top (d : MDoc) : ∀ (acc : List Char) (K : List (List Char))
    (cur : List Char) (res : List (List Char)),
    cleanDoc d = true → (∀ ch ∈ acc, ch ≠ '<') →
    ∃ cur', getItemsLoop ((eparts d acc).1 ++ K) 0 cur false res =
      getItemsLoop K 0 cur' false (res ++ topItemsM d) := by
  induction d with
  | nil => intro acc K cur res _ _; exact ⟨cur, by simp [eparts, topItemsM]⟩
  | txt s rest ih =>
    intro acc K cur res hd hacc
    simp only [cleanDoc, Bool.and_eq_true, Bool.not_eq_true'] at hd
    rw [eparts]
    refine ih _ K cur res hd.2 ?_
    intro ch hch
    rcases List.mem_append.mp hch with h | h
    · exact contains_false_forall hd.1 ch (List.mem_reverse.mp h)
    · exact hacc ch h
  | item c rest ihc ihr =>
    intro acc K cur res hd hacc
    simp only [cleanDoc, Bool.and_eq_true] at hd
    simp only [eparts, List.cons_append, List.append_assoc, List.cons_append]
    rw [loop_step_text (clean_not_open (fun ch hch => hacc ch (List.mem_reverse.mp hch)))
      (clean_not_close (fun ch hch => hacc ch (List.mem_reverse.mp hch)))]
    rw [if_neg (by simp)]
    rw [loop_step_open_zero]
    rw [loop_inside c [] _ 1 [] res hd.1 (by simp) (by omega)]
    have hpend := eparts_snd_clean c [] hd.1 (by simp)
    rw [loop_step_text (clean_not_open (fun ch hch => hpend ch (List.mem_reverse.mp hch)))
      (clean_not_close (fun ch hch => hpend ch (List.mem_reverse.mp hch)))]
    rw [if_pos rfl]
    rw [loop_step_close_one]
    have hpush : ([] : List Char) ++ (eparts c []).1.flatten ++ (eparts c []).2.reverse =
        renderM c := by
      simpa using eparts_flatten c []
    rw [hpush]
    rcases ihr [] K _ (res ++ [renderM c]) hd.2 (by simp) with ⟨cur', hl⟩
    refine ⟨cur', ?_⟩
    rw [hl]
    simp [topItemsM]

theorem splitTagsAux_nil (acc : List Char) : splitTagsAux [] acc = [acc.reverse] := by
  rw [splitTagsAux]

theorem getItems_render (d : MDoc) (hd : cleanDoc d = true) :
    getItems (String.mk (renderM d)) = (topItemsM d).map (fun l => String.mk l) := by
  unfold getItems
  have hdata : (String.mk (renderM d)).data = renderM d := rfl
  rw [hdata]
  have hs : splitTagsAux (renderM d) [] =
      (eparts d []).1 ++ [((eparts d []).2).reverse] := by
    have h1 := split_render d hd [] []
    simp only [List.append_nil] at h1
    rw [h1, splitTagsAux_nil]
  rw [hs]
  rcases loop_top d [] [((eparts d []).2).reverse] [] [] hd (by simp) with ⟨cur', hl⟩
  rw [hl]
  have hpend := eparts_snd_clean d [] hd (by simp)
  rw [loop_step_text (clean_not_open (fun ch hch => hpend ch (List.mem_reverse.mp hch)))
    (clean_not_close (fun ch hch => hpend ch (List.mem_reverse.mp hch)))]
  simp [getItemsLoop]

theorem topItems_sub (d : MDoc) : cleanDoc d = true →
    ∀ g ∈ topItemsM d, ∃ c : MDoc, g = renderM c ∧ cleanDoc c = true := by
  induction d with
  | nil => intro _ g hg; exact absurd hg (by simp [topItemsM])
  | txt s rest ih =>
    intro hd g hg
    simp only [cleanDoc, Bool.and_eq_true] at hd
    exact ih hd.2 g hg
  | item c rest ihc ihr =>
    intro hd g hg
    simp only [cleanDoc, Bool.and_eq_true] at hd
    rcases List.mem_cons.mp hg with h | h
    · exact ⟨c, h, hd.1⟩
    · exact ihr hd.2 g h

/-- C1: on every well-formed markup region, `getItems` returns exactly
the top-level `<item>` groups with their nested groups intact, and every
extracted group is itself the rendering of a well-formed region whose
extraction again yields exactly its own top-level groups — so
re-extracting nested groups from an extracted parent agrees with
extracting them from the corresponding region of the original document,
at any nesting depth. -/
theorem C1_markup_roundtrip (d : MDoc) (hd : cleanDoc d = true) :
    getItems (String.mk (renderM d)) = (topItemsM d).map (fun l => String.mk l) ∧
    ∀ g ∈ getItems (String.mk (renderM d)), ∃ c : MDoc,
      g = String.mk (renderM c) ∧ cleanDoc c = true ∧
      getItems (String.mk (renderM c)) = (topItemsM c).map (fun l => String.mk l) := by
  refine ⟨getItems_render d hd, ?_⟩
  intro g hg
  rw [getItems_render d hd] at hg
  rcases List.mem_map.mp hg with ⟨l, hl, hgl⟩
  rcases topItems_sub d hd l hl with ⟨c, hlc, hc⟩
  exact ⟨c, by rw [← hgl, hlc], hc, getItems_render c hc⟩

/-- Witness for C1: a two-level nested document evaluates to exactly its
top-level groups. -/
theorem C1_markup_roundtrip_witness :
    cleanDoc (MDoc.item (MDoc.txt "a".data (MDoc.item (MDoc.txt "b".data MDoc.nil) MDoc.nil))
      (MDoc.item (MDoc.txt "d".data MDoc.nil) MDoc.nil)) = true ∧
    getItems "<item>a<item>b</item></item><item>d</item>" = ["a<item>b</item>", "d"] :=
  ⟨by decide,
   (C1_markup_roundtrip
     (MDoc.item (MDoc.txt "a".data (MDoc.item (MDoc.txt "b".data MDoc.nil) MDoc.nil))
       (MDoc.item (MDoc.txt "d".data MDoc.nil) MDoc.nil)) (by decide)).1⟩

/-! ## C9 — Markup field extraction (src/unnamed/part_001 and
src/api/rrdb.ts, `getTextContent` lines 63–67).  The function is embedded
at the string level: `matchGTC` models one anchored attempt of the regex
`<tag[^>]*>([^<]*)</tag>` (case-insensitive in the tag, as the `i` flag
makes it), `findTC` is the leftmost-match search, and the result is the
trimmed first capture group. -/

/-- ASCII lower-case fold on character codes, modelling the regex `i`
flag's case-insensitive letter comparison. -/
def lcVal (c : Char) : Nat :=
  if 65 ≤ c.toNat ∧ c.toNat ≤ 90 then c.toNat + 32 else c.toNat

/-- Case-insensitive character equality. -/
def ciEqc (a b : Char) : Bool := lcVal a = lcVal b

/-- Strip a case-insensitive occurrence of the pattern characters from
the front of the input, returning the remainder. -/
def stripCi : List Char → List Char → Option (List Char)
  | [], r => some r
  | _ :: _, [] => none
  | p :: ps, c :: cs => if ciEqc c p then stripCi ps cs else none

/-- One anchored attempt of `<tag[^>]*>([^<]*)</tag>` at the start of the
input: `<`, the tag case-insensitively, any run of non-`>` then `>`, the
capture (the run of non-`<`), then `</`, the tag and `>`.  Returns the
capture group. -/
def matchGTC (tag : List Char) : List Char → Option (List Char)
  | [] => none
  | c :: r1 =>
    if c ≠ '<' then none else
    match stripCi tag r1 with
    | some r2 =>
      match scanGt r2 with
      | some (_, r3) =>
        let cap := r3.takeWhile (fun c => c ≠ '<')
        match r3.dropWhile (fun c => c ≠ '<') with
        | '<' :: '/' :: r5 =>
          match stripCi tag r5 with
          | some ('>' :: _) => some cap
          | _ => none
        | _ => none
      | none => none
    | none => none

/-- Leftmost match: try the anchored pattern at every position, as the
regex engine behind `xml.match(...)` does. -/
def findTC (tag : List Char) : List Char → Option (List Char)
  | [] => none
  | c :: rest =>
    match matchGTC tag (c :: rest) with
    | some cap => some cap
    | none => findTC tag rest

/-- Model of JavaScript `String.prototype.trim` (strip whitespace from
both ends). -/
def trimChars (l : List Char) : List Char :=
  ((l.dropWhile Char.isWhitespace).reverse.dropWhile Char.isWhitespace).reverse

/-- Embedding of `getTextContent` (src/unnamed/part_001 lines 63–67):
the trimmed first capture of the leftmost regex match, or the empty
string when there is no match. -/
def getTextContent (xml tag : String) : String :=
  match findTC tag.data xml.data with
  | some cap => String.mk (trimChars cap)
  | none => ""

/-- Grammar of markup documents for the field-extraction claim: text
pieces and named elements with children. -/
inductive XDoc where
  | nil : XDoc
  | txt : List Char → XDoc → XDoc
  | el : List Char → XDoc → XDoc → XDoc

/-- Render a document region to its markup text. -/
def renderX : XDoc → List Char
  | .nil => []
  | .txt s rest => s ++ renderX rest
  | .el name c rest =>
    '<' :: (name ++ ('>' :: (renderX c ++ ('<' :: '/' :: (name ++ ('>' :: renderX rest))))))

/-- A character that cannot be confused with markup punctuation, even
case-insensitively: not `<`, `>` or `/`. -/
def safeChar (c : Char) : Bool := !(ciEqc c '<') && !(ciEqc c '>') && !(ciEqc c '/')

/-- Well-formedness for the extraction claim: text pieces contain no `<`
and element names consist of safe characters. -/
def wfX : XDoc → Bool
  | .nil => true
  | .txt s rest => !(s.contains '<') && wfX rest
  | .el name c rest => name.all safeChar && wfX c && wfX rest

/-- A region whose top level contains no element (only text pieces). -/
def pureText : XDoc → Bool
  | .nil => true
  | .txt _ rest => pureText rest
  | .el _ _ _ => false

/-- The concatenated text of a pure-text region. -/
def textOf : XDoc → List Char
  | .nil => []
  | .txt s rest => s ++ textOf rest
  | .el _ _ _ => []

/-- Case-insensitive list equality (same length, pairwise `ciEqc`). -/
def ciEqL : List Char → List Char → Bool
  | [], [] => true
  | a :: as_, b :: bs => ciEqc a b && ciEqL as_ bs
  | _, _ => false

/-- Spec-side description of `getTextContent`, per the amended claim C9:
the untrimmed content of the first element, in document order, whose name
equals the tag case-insensitively *and whose content is plain text*;
elements with nested markup are skipped. -/
def firstTextElem (tag : List Char) : XDoc → Option (List Char)
  | .nil => none
  | .txt _ rest => firstTextElem tag rest
  | .el name c rest =>
    if ciEqL name tag ∧ pureText c then some (textOf c)
    else
      match firstTextElem tag c with
      | some v => some v
      | none => firstTextElem tag rest


theorem ciEqc_refl (c : Char) : ciEqc c c = true := by simp [ciEqc]

theorem ciEqc_symm (a b : Char) : ciEqc a b = ciEqc b a := by
  simp [ciEqc, eq_comm]

theorem safe_ne {c x : Char} (hs : safeChar c = true) (hx : ciEqc c x = false) :
    c ≠ x := by
  intro he
  subst he
  rw [ciEqc_refl] at hx
  exact Bool.noConfusion hx

theorem safe_ne_lt {c : Char} (hs : safeChar c = true) : c ≠ '<' := by
  simp only [safeChar, Bool.and_eq_true, Bool.not_eq_true'] at hs
  exact safe_ne (by simp [safeChar, hs]) hs.1.1

theorem safe_ne_gt {c : Char} (hs : safeChar c = true) : c ≠ '>' := by
  simp only [safeChar, Bool.and_eq_true, Bool.not_eq_true'] at hs
  exact safe_ne (by simp [safeChar, hs]) hs.1.2

theorem safe_ne_slash {c : Char} (hs : safeChar c = true) : c ≠ '/' := by
  simp only [safeChar, Bool.and_eq_true, Bool.not_eq_true'] at hs
  exact safe_ne (by simp [safeChar, hs]) hs.2

theorem stripCi_of_ciEqL {tag name : List Char} (h : ciEqL name tag = true) :
    ∀ R, stripCi tag (name ++ R) = some R := by
  induction tag generalizing name with
  | nil =>
    cases name with
    | nil => intro R; rfl
    | cons n ns => intro R; exact absurd h (by simp [ciEqL])
  | cons t ts ih =>
    cases name with
    | nil => intro R; exact absurd h (by simp [ciEqL])
    | cons n ns =>
      intro R
      simp only [ciEqL, Bool.and_eq_true] at h
      simp only [List.cons_append, stripCi, if_pos h.1]
      exact ih h.2 R

theorem stripCi_name_gt {tag name : List Char} (R : List Char)
    (hname : name.all safeChar = true) (htag : tag.all safeChar = true) :
    stripCi tag (name ++ '>' :: R) = none ∨
    (∃ suffix : List Char, suffix.all safeChar = true ∧
      stripCi tag (name ++ '>' :: R) = some (suffix ++ '>' :: R) ∧
      (suffix.isEmpty = true ↔ ciEqL name tag = true)) := by
  induction tag generalizing name with
  | nil =>
    right
    refine ⟨name, hname, rfl, ?_⟩
    cases name with
    | nil => simp [ciEqL]
    | cons n ns => simp [ciEqL]
  | cons t ts ih =>
    simp only [List.all_cons, Bool.and_eq_true] at htag
    cases name with
    | nil =>
      left
      have hf : ciEqc t '>' = false := by
        have h1 := htag.1
        simp only [safeChar, Bool.and_eq_true, Bool.not_eq_true'] at h1
        exact h1.1.2
      simp only [List.nil_append, stripCi]
      rw [if_neg (by rw [ciEqc_symm]; simp [hf])]
    | cons n ns =>
      simp only [List.all_cons, Bool.and_eq_true] at hname
      by_cases hcn : ciEqc n t = true
      · simp only [List.cons_append, stripCi, if_pos hcn]
        rcases ih hname.2 htag.2 with h | ⟨suffix, hs1, hs2, hs3⟩
        · exact Or.inl h
        · right
          refine ⟨suffix, hs1, hs2, ?_⟩
          rw [hs3]
          simp [ciEqL, hcn]
      · left
        simp only [List.cons_append, stripCi]
        rw [if_neg (by simpa using hcn)]

theorem scanGt_no_gt {A : List Char} (h : ∀ c ∈ A, c ≠ '>') (B : List Char) :
    scanGt (A ++ '>' :: B) = some (A, B) := by
  induction A with
  | nil => simp [scanGt]
  | cons a as_ ih =>
    simp only [List.cons_append, scanGt, List.append_eq]
    rw [if_neg (h a (List.mem_cons_self _ _))]
    rw [ih (fun c hc => h c (List.mem_cons_of_mem _ hc))]
    rfl

theorem takeWhile_no_lt {T : List Char} (h : ∀ c ∈ T, c ≠ '<') (B : List Char) :
    (T ++ '<' :: B).takeWhile (fun c => c ≠ '<') = T ∧
    (T ++ '<' :: B).dropWhile (fun c => c ≠ '<') = '<' :: B := by
  induction T with
  | nil => simp [List.takeWhile, List.dropWhile]
  | cons t ts ih =>
    have ht : t ≠ '<' := h t (List.mem_cons_self _ _)
    have ih' := ih (fun c hc => h c (List.mem_cons_of_mem _ hc))
    constructor
    · rw [List.cons_append, List.takeWhile_cons, if_pos (by simpa using ht), ih'.1]
    · rw [List.cons_append, List.dropWhile_cons, if_pos (by simpa using ht), ih'.2]

theorem pureText_render {d : XDoc} (hp : pureText d = true) (hw : wfX d = true) :
    renderX d = textOf d ∧ ∀ c ∈ textOf d, c ≠ '<' := by
  induction d with
  | nil => exact ⟨rfl, by simp [textOf]⟩
  | txt s rest ih =>
    simp only [pureText] at hp
    simp only [wfX, Bool.and_eq_true, Bool.not_eq_true'] at hw
    rcases ih hp hw.2 with ⟨h1, h2⟩
    refine ⟨by simp [renderX, textOf, h1], ?_⟩
    intro c hc
    rcases List.mem_append.mp hc with h | h
    · exact contains_false_forall hw.1 c h
    · exact h2 c h
  | el name c rest ihc ihr => exact absurd hp (by simp [pureText])

theorem impure_render {d : XDoc} (hp : pureText d = false) (hw : wfX d = true) :
    ∃ (T : List Char) (b : Char) (B : List Char),
      renderX d = T ++ '<' :: b :: B ∧ (∀ ch ∈ T, ch ≠ '<') ∧ b ≠ '/' := by
  induction d with
  | nil => exact absurd hp (by simp [pureText])
  | txt s rest ih =>
    simp only [pureText] at hp
    simp only [wfX, Bool.and_eq_true, Bool.not_eq_true'] at hw
    rcases ih hp hw.2 with ⟨T, b, B, h1, h2, h3⟩
    refine ⟨s ++ T, b, B, ?_, ?_, h3⟩
    · simp [renderX, h1, List.append_assoc]
    · intro ch hch
      rcases List.mem_append.mp hch with h | h
      · exact contains_false_forall hw.1 ch h
      · exact h2 ch h
  | el name c rest ihc ihr =>
    simp only [wfX, Bool.and_eq_true] at hw
    cases hn : name with
    | nil =>
      refine ⟨[], '>', renderX c ++ '<' :: '/' :: ('>' :: renderX rest), ?_, by simp, by decide⟩
      simp [renderX, hn]
    | cons n ns =>
      have hns : safeChar n = true := by
        have := hw.1.1
        rw [hn] at this
        simp only [List.all_cons, Bool.and_eq_true] at this
        exact this.1
      refine ⟨[], n, ns ++ '>' :: (renderX c ++ '<' :: '/' :: (name ++ '>' :: renderX rest)), ?_, by simp, safe_ne_slash hns⟩
      simp [renderX, hn, List.append_assoc]

theorem stripCi_gt_cases {tag name : List Char}
    (hname : name.all safeChar = true) (htag : tag.all safeChar = true) :
    (∀ R' : List Char, stripCi tag (name ++ '>' :: R') = none) ∨
    (∃ suffix : List Char, suffix.all safeChar = true ∧
      (suffix.isEmpty = true ↔ ciEqL name tag = true) ∧
      ∀ R' : List Char, stripCi tag (name ++ '>' :: R') = some (suffix ++ '>' :: R')) := by
  induction tag generalizing name with
  | nil =>
    right
    refine ⟨name, hname, ?_, fun R' => rfl⟩
    cases name with
    | nil => simp [ciEqL]
    | cons n ns => simp [ciEqL]
  | cons t ts ih =>
    simp only [List.all_cons, Bool.and_eq_true] at htag
    cases name with
    | nil =>
      left
      intro R'
      have hf : ciEqc t '>' = false := by
        have h1 := htag.1
        simp only [safeChar, Bool.and_eq_true, Bool.not_eq_true'] at h1
        exact h1.1.2
      simp only [List.nil_append, stripCi]
      rw [if_neg (by rw [ciEqc_symm]; simp [hf])]
    | cons n ns =>
      simp only [List.all_cons, Bool.and_eq_true] at hname
      by_cases hcn : ciEqc n t = true
      · rcases ih hname.2 htag.2 with h | ⟨suffix, hs1, hs2, hs3⟩
        · left
          intro R'
          simp only [List.cons_append, stripCi, if_pos hcn]
          exact h R'
        · right
          refine ⟨suffix, hs1, ?_, ?_⟩
          · rw [hs2]; simp [ciEqL, hcn]
          · intro R'
            simp only [List.cons_append, stripCi, if_pos hcn]
            exact hs3 R'
      · left
        intro R'
        simp only [List.cons_append, stripCi]
        rw [if_neg (by simpa using hcn)]

theorem matchGTC_open {tag name : List Char} {c : XDoc} (R : List Char)
    (htag : tag.all safeChar = true)
    (hname : name.all safeChar = true) (hwc : wfX c = true) :
    matchGTC tag ('<' :: (name ++ '>' :: (renderX c ++ '<' :: '/' :: (name ++ '>' :: R)))) =
      (if (ciEqL name tag && pureText c) = true then some (textOf c) else none) := by
  have hsfx : ∀ suffix : List Char, suffix.all safeChar = true →
      ∀ ch ∈ suffix, ch ≠ '>' := by
    intro suffix hs ch hch
    exact safe_ne_gt (List.all_eq_true.mp hs ch hch)
  simp only [matchGTC]
  rw [if_neg (by simp)]
  rcases stripCi_gt_cases hname htag with hnone | ⟨suffix, hs1, hs2, hs3⟩
  · have hci : ciEqL name tag = false := by
      cases hcl : ciEqL name tag
      · rfl
      · have := stripCi_of_ciEqL hcl ('>' :: (renderX c ++ '<' :: '/' :: (name ++ '>' :: R)))
        rw [hnone] at this
        exact Option.noConfusion this
    simp only [hnone, hci, Bool.false_and]
    simp
  · simp only [hs3]
    rw [show scanGt (suffix ++ '>' :: (renderX c ++ '<' :: '/' :: (name ++ '>' :: R))) =
        some (suffix, renderX c ++ '<' :: '/' :: (name ++ '>' :: R)) from
      scanGt_no_gt (hsfx suffix hs1) _]
    cases hp : pureText c with
    | true =>
      rcases pureText_render hp hwc with ⟨hr, hnl⟩
      rw [hr]
      have htw := takeWhile_no_lt (T := textOf c) hnl ('/' :: (name ++ '>' :: R))
      simp only [List.cons_append] at htw
      simp only [htw.1, htw.2]
      simp only [hs3]
      cases hse : suffix with
      | nil =>
        have hci : ciEqL name tag = true := hs2.mp (by simp [hse])
        simp only [hse, List.nil_append, hci, Bool.true_and]
        simp
      | cons s ss =>
        have hci : ciEqL name tag = false := by
          cases hcl : ciEqL name tag
          · rfl
          · have := hs2.mpr hcl
            rw [hse] at this
            exact absurd this (by simp)
        have hsne : s ≠ '>' := by
          refine safe_ne_gt ?_
          have h1 := hs1
          rw [hse] at h1
          simp only [List.all_cons, Bool.and_eq_true] at h1
          exact h1.1
        simp only [hse, List.cons_append, hci, Bool.false_and]
        split
        next heq =>
          injection heq with h0
          injection h0 with h1 h2
          exact absurd h1 hsne
        next => simp
    | false =>
      rcases impure_render hp hwc with ⟨T, b, B, hr, hT, hb⟩
      rw [hr]
      have htw := takeWhile_no_lt (T := T) hT (b :: (B ++ '<' :: '/' :: (name ++ '>' :: R)))
      rw [show (T ++ '<' :: b :: B) ++ '<' :: '/' :: (name ++ '>' :: R) =
          T ++ '<' :: (b :: (B ++ '<' :: '/' :: (name ++ '>' :: R))) from by
        simp [List.append_assoc]]
      simp only [htw.1, htw.2]
      simp only [Bool.and_false]
      split
      next heq =>
        injection heq with h1 h2
        injection h2 with h3 h4
        exact absurd h3 hb
      next => simp

theorem matchGTC_not_lt {tag : List Char} {ch : Char} (hc : ch ≠ '<')
    (l : List Char) : matchGTC tag (ch :: l) = none := by
  simp [matchGTC, hc]

theorem findTC_text {tag s : List Char} (hs : ∀ c ∈ s, c ≠ '<') :
    ∀ R, findTC tag (s ++ R) = findTC tag R := by
  induction s with
  | nil => intro R; rfl
  | cons c cs ih =>
    intro R
    rw [List.cons_append, findTC]
    rw [matchGTC_not_lt (hs c (List.mem_cons_self _ _))]
    exact ih (fun x hx => hs x (List.mem_cons_of_mem _ hx)) R

theorem findTC_close {tag name : List Char}
    (htag : tag.all safeChar = true) (htne : tag ≠ [])
    (hname : name.all safeChar = true) :
    ∀ R, findTC tag ('<' :: '/' :: (name ++ '>' :: R)) = findTC tag R := by
  intro R
  rw [findTC]
  have hm : matchGTC tag ('<' :: '/' :: (name ++ '>' :: R)) = none := by
    simp only [matchGTC]
    rw [if_neg (by simp)]
    cases tag with
    | nil => exact absurd rfl htne
    | cons t ts =>
      have hf : ciEqc t '/' = false := by
        simp only [List.all_cons, Bool.and_eq_true] at htag
        have h1 := htag.1
        simp only [safeChar, Bool.and_eq_true, Bool.not_eq_true'] at h1
        exact h1.2
      simp only [stripCi]
      rw [if_neg (by rw [ciEqc_symm]; simp [hf])]
  rw [hm]
  rw [show ('/' :: (name ++ '>' :: R)) = ('/' :: name ++ ['>']) ++ R from by simp]
  refine findTC_text ?_ R
  intro c hc
  rcases List.mem_cons.mp hc with h | h
  · subst h; decide
  · rcases List.mem_append.mp h with h2 | h2
    · exact safe_ne_lt (List.all_eq_true.mp hname c h2)
    · simp only [List.mem_singleton] at h2
      subst h2; decide

theorem findTC_render (d : XDoc) {tag : List Char}
    (htag : tag.all safeChar = true) (htne : tag ≠ []) :
    wfX d = true → ∀ K, findTC tag (renderX d ++ K) =
      (match firstTextElem tag d with
       | some v => some v
       | none => findTC tag K) := by
  induction d with
  | nil => intro _ K; simp [renderX, firstTextElem]
  | txt s rest ih =>
    intro hw K
    simp only [wfX, Bool.and_eq_true, Bool.not_eq_true'] at hw
    rw [renderX, firstTextElem, List.append_assoc,
      findTC_text (contains_false_forall hw.1)]
    exact ih hw.2 K
  | el name c rest ihc ihr =>
    intro hw K
    simp only [wfX, Bool.and_eq_true] at hw
    have hrw : renderX (XDoc.el name c rest) ++ K =
        '<' :: (name ++ '>' :: (renderX c ++ '<' :: '/' :: (name ++ '>' :: (renderX rest ++ K)))) := by
      simp [renderX, List.append_assoc]
    rw [hrw, findTC]
    rw [matchGTC_open (renderX rest ++ K) htag hw.1.1 hw.1.2]
    by_cases hok : (ciEqL name tag && pureText c) = true
    · rw [if_pos hok]
      simp only [Bool.and_eq_true] at hok
      simp [firstTextElem, hok.1, hok.2]
    · rw [if_neg hok]
      have hskip1 : findTC tag (name ++ '>' :: (renderX c ++ '<' :: '/' :: (name ++ '>' :: (renderX rest ++ K)))) =
          findTC tag (renderX c ++ '<' :: '/' :: (name ++ '>' :: (renderX rest ++ K))) := by
        rw [show name ++ '>' :: (renderX c ++ '<' :: '/' :: (name ++ '>' :: (renderX rest ++ K))) =
            (name ++ ['>']) ++ (renderX c ++ '<' :: '/' :: (name ++ '>' :: (renderX rest ++ K))) from by simp]
        refine findTC_text ?_ _
        intro ch hch
        rcases List.mem_append.mp hch with h | h
        · exact safe_ne_lt (List.all_eq_true.mp hw.1.1 ch h)
        · simp only [List.mem_singleton] at h
          subst h; decide
      rw [hskip1]
      rw [show renderX c ++ '<' :: '/' :: (name ++ '>' :: (renderX rest ++ K)) =
          renderX c ++ ('<' :: '/' :: (name ++ '>' :: (renderX rest ++ K))) from rfl]
      rw [ihc hw.1.2 _]
      have hcip : ¬ (ciEqL name tag = true ∧ pureText c = true) := by
        intro hcp
        exact hok (by simp [hcp.1, hcp.2])
      cases hfc : firstTextElem tag c with
      | some v => simp [firstTextElem, hcip, hfc]
      | none =>
        simp only []
        rw [findTC_close htag htne hw.1.1]
        rw [ihr hw.2 K]
        simp [firstTextElem, hcip, hfc]

/-- All descendant text of a region (DOM `textContent` semantics), used
by the original claim's reading. -/
def textAllX : XDoc → List Char
  | .nil => []
  | .txt s rest => s ++ textAllX rest
  | .el _ c rest => textAllX c ++ textAllX rest

/-- The original claim's reading: the full text content of the first
element with the given tag name, in document order. -/
def domFirstText (tag : List Char) : XDoc → Option (List Char)
  | .nil => none
  | .txt _ rest => domFirstText tag rest
  | .el name c rest =>
    if ciEqL name tag then some (textAllX c)
    else
      match domFirstText tag c with
      | some v => some v
      | none => domFirstText tag rest

/-- C9 (amended): on every well-formed document, `getTextContent`
returns the *trimmed* text of the first element (in document order) whose
name matches the tag case-insensitively and whose content is plain text,
and the empty string when no such element exists. -/
theorem C9_text_extraction (d : XDoc) (tag : String)
    (hw : wfX d = true) (htag : tag.data.all safeChar = true) (htne : tag ≠ "") :
    getTextContent (String.mk (renderX d)) tag =
      (match firstTextElem tag.data d with
       | some cap => String.mk (trimChars cap)
       | none => "") := by
  unfold getTextContent
  have hdata : (String.mk (renderX d)).data = renderX d := rfl
  rw [hdata]
  have hne : tag.data ≠ [] := by
    intro hc
    apply htne
    cases tag with
    | mk data => simp at hc; rw [hc]
  have h := findTC_render d htag hne hw []
  simp only [List.append_nil] at h
  rw [h]
  cases firstTextElem tag.data d with
  | some v => rfl
  | none => rfl

/-- C9 (counterexample): in `<a><b>x</b></a><a> y </a>` the first `<a>`
element's text content is `x`, but the code returns `y` — it skips the
first `<a>` because its content contains nested markup (the regex capture
is `[^<]*`), and it trims the matched content. -/
theorem C9_counterexample :
    domFirstText "a".data
      (XDoc.el "a".data (XDoc.el "b".data (XDoc.txt "x".data XDoc.nil) XDoc.nil)
        (XDoc.el "a".data (XDoc.txt " y ".data XDoc.nil) XDoc.nil)) = some "x".data ∧
    getTextContent
      (String.mk (renderX
        (XDoc.el "a".data (XDoc.el "b".data (XDoc.txt "x".data XDoc.nil) XDoc.nil)
          (XDoc.el "a".data (XDoc.txt " y ".data XDoc.nil) XDoc.nil)))) "a" = "y" ∧
    ("y" : String) ≠ "x" := by
  refine ⟨by decide, by decide, by decide⟩

/-- Witness for C9: the first plain-text `ctid` element is found
case-insensitively and trimmed. -/
theorem C9_text_extraction_witness :
    wfX (XDoc.el "ctid".data (XDoc.txt " 77 ".data XDoc.nil) XDoc.nil) = true ∧
    getTextContent
      (String.mk (renderX (XDoc.el "ctid".data (XDoc.txt " 77 ".data XDoc.nil) XDoc.nil)))
      "CTID" = "77" :=
  ⟨by decide,
   (C9_text_extraction (XDoc.el "ctid".data (XDoc.txt " 77 ".data XDoc.nil) XDoc.nil)
     "CTID" (by decide) (by decide) (by decide)).trans (by decide)⟩

/-!
### C8: AI oracle JSON recovery (src/unnamed/part_002 lines 101-129)

A character-level model of `JSON.parse` (lexer as a one-character-step
state machine, fuel-based recursive-descent parser), the fenced-block
regex, the brace-to-brace substring fallback, and the truthiness-guarded
normalization block.
-/

/-- JSON values as produced by `JSON.parse`. -/
inductive JVal where
  | null : JVal
  | bool : Bool → JVal
  | num : ℚ → JVal
  | str : List Char → JVal
  | arr : List JVal → JVal
  | obj : List (List Char × JVal) → JVal

/-- JSON lexical tokens. -/
inductive JTok where
  | lbrace | rbrace | lbrack | rbrack | colon | comma
  | jnull | jtrue | jfalse
  | num : ℚ → JTok
  | str : List Char → JTok
deriving DecidableEq, Repr

def jsonWs (c : Char) : Bool := c = ' ' ∨ c = '\t' ∨ c = '\n' ∨ c = '\r'

def isHexDigitC (c : Char) : Bool :=
  c.isDigit ∨ ('a' ≤ c ∧ c ≤ 'f') ∨ ('A' ≤ c ∧ c ≤ 'F')

def hexDigitVal (c : Char) : Nat :=
  if c.isDigit then c.toNat - 48
  else if 'a' ≤ c ∧ c ≤ 'f' then c.toNat - 87
  else c.toNat - 55

def hexChar (ds : List Char) : Char :=
  Char.ofNat (ds.foldl (fun n c => n * 16 + hexDigitVal c) 0)

def isNumChar (c : Char) : Bool :=
  c.isDigit ∨ c = '-' ∨ c = '+' ∨ c = '.' ∨ c = 'e' ∨ c = 'E'

/-- Value of a digit run. -/
def digitsVal (ds : List Char) : Nat := ds.foldl (fun n c => n * 10 + (c.toNat - 48)) 0

/-- Parse the strict JSON number grammar
`-? (0 | [1-9][0-9]*) (. [0-9]+)? ([eE] [+-]? [0-9]+)?` (the whole input
must be consumed), returning the exact rational value. -/
def numOfChars (cs : List Char) : Option ℚ :=
  let signed : Bool × List Char :=
    match cs with
    | '-' :: t => (true, t)
    | t => (false, t)
  let ip := signed.2.takeWhile Char.isDigit
  let r1 := signed.2.dropWhile Char.isDigit
  let okInt : Bool :=
    match ip with
    | [] => false
    | ['0'] => true
    | d :: _ => d ≠ '0'
  let fpR : Option (List Char × List Char) :=
    match r1 with
    | '.' :: t =>
      match t.takeWhile Char.isDigit with
      | [] => none
      | fp => some (fp, t.dropWhile Char.isDigit)
    | t => some ([], t)
  match fpR with
  | none => none
  | some (fp, r2) =>
    let expR : Option (Bool × List Char × List Char) :=
      match r2 with
      | e :: t =>
        if e = 'e' ∨ e = 'E' then
          let se : Bool × List Char :=
            match t with
            | '-' :: t2 => (true, t2)
            | '+' :: t2 => (false, t2)
            | t2 => (false, t2)
          match se.2.takeWhile Char.isDigit with
          | [] => none
          | ep => some (se.1, ep, se.2.dropWhile Char.isDigit)
        else none
      | [] => some (false, [], [])
    match expR with
    | none => none
    | some (eneg, ep, r3) =>
      if okInt ∧ r3 = [] then
        let mant : Nat := digitsVal ip * 10 ^ fp.length + digitsVal fp
        let e10 : Int := (if eneg then -(digitsVal ep : Int) else (digitsVal ep : Int)) - fp.length
        let mag : ℚ :=
          if 0 ≤ e10 then mkRat (Int.ofNat (mant * 10 ^ e10.toNat)) 1
          else mkRat (Int.ofNat mant) (10 ^ (-e10).toNat)
        some (if signed.1 then -mag else mag)
      else none

def litTok (cs : List Char) : Option JTok :=
  if cs = "true".data then some .jtrue
  else if cs = "false".data then some .jfalse
  else if cs = "null".data then some .jnull
  else none

/-- Lexer mode: a small state machine run one character at a time, so the
whole lexer is structurally recursive and evaluates by kernel reduction. -/
inductive LexMode where
  | top
  | instr : List Char → LexMode
  | esc : List Char → LexMode
  | hex : List Char → List Char → LexMode
  | innum : List Char → LexMode
  | inlit : List Char → LexMode
deriving DecidableEq, Repr

structure LexSt where
  toks : List JTok
  mode : LexMode
deriving DecidableEq, Repr

def dispatchTop (toks : List JTok) (c : Char) : Option LexSt :=
  if jsonWs c then some ⟨toks, .top⟩
  else if c = '\x7b' then some ⟨.lbrace :: toks, .top⟩
  else if c = '\x7d' then some ⟨.rbrace :: toks, .top⟩
  else if c = '[' then some ⟨.lbrack :: toks, .top⟩
  else if c = ']' then some ⟨.rbrack :: toks, .top⟩
  else if c = ':' then some ⟨.colon :: toks, .top⟩
  else if c = ',' then some ⟨.comma :: toks, .top⟩
  else if c = '"' then some ⟨toks, .instr []⟩
  else if c.isDigit ∨ c = '-' then some ⟨toks, .innum [c]⟩
  else if 'a' ≤ c ∧ c ≤ 'z' then some ⟨toks, .inlit [c]⟩
  else none

/-- One lexer step.  Raw control characters (in particular a raw newline)
inside a string literal are rejected, as `JSON.parse` rejects them. -/
def lexStep (st : LexSt) (c : Char) : Option LexSt :=
  match st.mode with
  | .top => dispatchTop st.toks c
  | .instr acc =>
    if c = '"' then some ⟨.str acc.reverse :: st.toks, .top⟩
    else if c = '\\' then some ⟨st.toks, .esc acc⟩
    else if c.toNat < 32 then none
    else some ⟨st.toks, .instr (c :: acc)⟩
  | .esc acc =>
    if c = '"' ∨ c = '\\' ∨ c = '/' then some ⟨st.toks, .instr (c :: acc)⟩
    else if c = 'b' then some ⟨st.toks, .instr ('\x08' :: acc)⟩
    else if c = 'f' then some ⟨st.toks, .instr ('\x0c' :: acc)⟩
    else if c = 'n' then some ⟨st.toks, .instr ('\n' :: acc)⟩
    else if c = 'r' then some ⟨st.toks, .instr ('\r' :: acc)⟩
    else if c = 't' then some ⟨st.toks, .instr ('\t' :: acc)⟩
    else if c = 'u' then some ⟨st.toks, .hex acc []⟩
    else none
  | .hex acc pend =>
    if isHexDigitC c then
      if pend.length = 3 then some ⟨st.toks, .instr (hexChar (pend.reverse ++ [c]) :: acc)⟩
      else some ⟨st.toks, .hex acc (c :: pend)⟩
    else none
  | .innum acc =>
    if isNumChar c then some ⟨st.toks, .innum (c :: acc)⟩
    else
      match numOfChars acc.reverse with
      | some q => dispatchTop (.num q :: st.toks) c
      | none => none
  | .inlit acc =>
    if 'a' ≤ c ∧ c ≤ 'z' then some ⟨st.toks, .inlit (c :: acc)⟩
    else
      match litTok acc.reverse with
      | some t => dispatchTop (t :: st.toks) c
      | none => none

def lexFinish (st : LexSt) : Option (List JTok) :=
  match st.mode with
  | .top => some st.toks.reverse
  | .innum acc =>
    match numOfChars acc.reverse with
    | some q => some (JTok.num q :: st.toks).reverse
    | none => none
  | .inlit acc =>
    match litTok acc.reverse with
    | some t => some (t :: st.toks).reverse
    | none => none
  | _ => none

def lexChars (cs : List Char) : Option (List JTok) :=
  (cs.foldlM lexStep ⟨[], .top⟩).bind lexFinish


/-- Insert a key/value into a JavaScript-object field list: overwrite in
place when the key exists (keeping its position), else append — the
semantics of property assignment, used both when `JSON.parse` collapses
duplicate keys and by the handler's normalization writes. -/
def setField : List (List Char × JVal) → List Char → JVal → List (List Char × JVal)
  | [], key, x => [(key, x)]
  | (k, v) :: rest, key, x =>
    if k = key then (k, x) :: rest else (k, v) :: setField rest key x

def lookupField : List (List Char × JVal) → List Char → Option JVal
  | [], _ => none
  | (k, v) :: rest, key => if k = key then some v else lookupField rest key

mutual
def parseVal : Nat → List JTok → Option (JVal × List JTok)
  | 0, _ => none
  | _ + 1, [] => none
  | fuel + 1, t :: ts =>
    match t with
    | .jnull => some (.null, ts)
    | .jtrue => some (.bool true, ts)
    | .jfalse => some (.bool false, ts)
    | .num q => some (.num q, ts)
    | .str s => some (.str s, ts)
    | .lbrack =>
      match ts with
      | .rbrack :: ts2 => some (.arr [], ts2)
      | _ => (parseItems fuel ts).map (fun p => (.arr p.1, p.2))
    | .lbrace =>
      match ts with
      | .rbrace :: ts2 => some (.obj [], ts2)
      | _ => (parseFields fuel ts).map
          (fun p => (.obj (p.1.foldl (fun fs kv => setField fs kv.1 kv.2) []), p.2))
    | _ => none

def parseItems : Nat → List JTok → Option (List JVal × List JTok)
  | 0, _ => none
  | fuel + 1, ts =>
    (parseVal fuel ts).bind (fun p =>
      match p.2 with
      | .comma :: ts3 => (parseItems fuel ts3).map (fun q => (p.1 :: q.1, q.2))
      | .rbrack :: ts3 => some ([p.1], ts3)
      | _ => none)

def parseFields : Nat → List JTok → Option (List (List Char × JVal) × List JTok)
  | 0, _ => none
  | fuel + 1, ts =>
    match ts with
    | .str k :: .colon :: ts2 =>
      (parseVal fuel ts2).bind (fun p =>
        match p.2 with
        | .comma :: ts3 => (parseFields fuel ts3).map (fun q => ((k, p.1) :: q.1, q.2))
        | .rbrace :: ts3 => some ([(k, p.1)], ts3)
        | _ => none)
    | _ => none
end

/-- Model of `JSON.parse`: lex, parse one value with ample fuel, and
require the whole input to be consumed (`none` models a thrown
`SyntaxError`). -/
def jsonParse (cs : List Char) : Option JVal :=
  (lexChars cs).bind (fun toks =>
    match parseVal (toks.length + 1) toks with
    | some (v, []) => some v
    | _ => none)


example : jsonParse "0".data = some (.num 0) := by rfl
example : jsonParse " \x7b\"a\": 1, \"a\": 2\x7d ".data =
    some (.obj [("a".data, .num 2)]) := by rfl
example : jsonParse "[true, null, 1.5]".data =
    some (.arr [.bool true, .null, .num (mkRat 15 10)]) := by rfl
example : jsonParse "\x7b\x7d x".data = none := by rfl
example : jsonParse "".data = none := by rfl
example : jsonParse "\"a`b\"".data = some (.str ['a','`','b']) := by rfl

/-- Split at the first occurrence of `pat`: returns the text before it
and the text after it. -/
def findSeqSplit (pat : List Char) : List Char → Option (List Char × List Char)
  | [] => if pat.isPrefixOf [] then some ([], []) else none
  | c :: rest =>
    if pat.isPrefixOf (c :: rest) then some ([], (c :: rest).drop pat.length)
    else (findSeqSplit pat rest).map (fun p => (c :: p.1, p.2))

/-- Model of the fence regex match `text.match(/```json\n([\s\S]*?)(\n```|$)/)`:
the capture starts after the first ` ```json `+newline and runs lazily to
the first `\n``` ` or, failing that, to the end of the text. -/
def fenceCapture (cs : List Char) : Option (List Char) :=
  match findSeqSplit ('`' :: '`' :: '`' :: 'j' :: 's' :: 'o' :: 'n' :: '\n' :: []) cs with
  | none => none
  | some (_, after) =>
    match findSeqSplit ('\n' :: '`' :: '`' :: '`' :: []) after with
    | some (cap, _) => some cap
    | none => some after

def firstIdx (c : Char) : List Char → Option Nat
  | [] => none
  | x :: rest => if x = c then some 0 else (firstIdx c rest).map (fun i => i + 1)

def lastIdx (c : Char) (cs : List Char) : Option Nat :=
  (firstIdx c cs.reverse).map (fun i => cs.length - 1 - i)

/-- Model of JavaScript `String.prototype.substring` (argument swap and
clamping included). -/
def jsSubstring (cs : List Char) (a b : Nat) : List Char :=
  (cs.take (max a b)).drop (min a b)

/-- The third recovery attempt: the substring from the first `{` to the
last `}` (as `text.substring(start, end + 1)`), when both braces exist. -/
def braceSub (cs : List Char) : Option (List Char) :=
  match firstIdx '\x7b' cs, lastIdx '\x7d' cs with
  | some s, some e => some (jsSubstring cs s (e + 1))
  | _, _ => none

/-- JavaScript truthiness of a JSON value. -/
def jsTruthy : JVal → Bool
  | .null => false
  | .bool b => b
  | .num q => decide (q ≠ 0)
  | .str s => decide (s ≠ [])
  | .arr _ => true
  | .obj _ => true

def ensureArrOpt : Option JVal → JVal
  | some (.arr l) => .arr l
  | _ => .arr []

/-- Normalization of one agency element: `if (!Array.isArray(a.frequencies))
a.frequencies = []`.  Assigning a property on a primitive or `null` throws
in strict mode (`error`); on an array the assignment succeeds but custom
properties do not survive JSON serialization, so the element is returned
unchanged. -/
def normAgencyEl : JVal → Except Unit JVal
  | .obj fs => .ok (.obj (setField fs "frequencies".data
      (ensureArrOpt (lookupField fs "frequencies".data))))
  | .arr l => .ok (.arr l)
  | _ => .error ()

/-- Normalization of one trunked-system element: default `talkgroups` then
`frequencies` to empty arrays. -/
def normTsEl : JVal → Except Unit JVal
  | .obj fs =>
    let f1 := setField fs "talkgroups".data (ensureArrOpt (lookupField fs "talkgroups".data))
    .ok (.obj (setField f1 "frequencies".data (ensureArrOpt (lookupField f1 "frequencies".data))))
  | .arr l => .ok (.arr l)
  | _ => .error ()

/-- Sequential effectful map, the `forEach` normalization loop. -/
def exMapM (f : α → Except Unit β) : List α → Except Unit (List β)
  | [] => .ok []
  | x :: rest => (f x).bind (fun y => (exMapM f rest).map (fun ys => y :: ys))

/-- Embedding of the `if (data) { ... }` normalization block of the AI
handler (src/unnamed/part_002 lines 120–129): on a truthy parsed value,
set `source`, default `agencies`/`trunkedSystems` to arrays, and default
the nested lists of every element; on a falsy value do nothing.  A truthy
non-object (number/string/`true`) makes the strict-mode property
assignment `data.source = 'AI'` throw, modelled by `error`. -/
def normalizeData (v : JVal) : Except Unit JVal :=
  if jsTruthy v then
    match v with
    | .obj fs =>
      let f1 := setField fs "source".data (.str "AI".data)
      let agl := match lookupField f1 "agencies".data with | some (.arr l) => l | _ => []
      let tsl := match lookupField f1 "trunkedSystems".data with | some (.arr l) => l | _ => []
      (exMapM normAgencyEl agl).bind (fun agl2 =>
        (exMapM normTsEl tsl).map (fun tsl2 =>
          .obj (setField (setField f1 "agencies".data (.arr agl2))
            "trunkedSystems".data (.arr tsl2))))
    | .arr l => .ok (.arr l)
    | _ => .error ()
  else .ok v

/-- The raw parsed value of the cascade (the `data` variable of the AI
handler, src/unnamed/part_002 lines 101–118, after the try/catch chains
and before normalization): try the fenced block when present with a
non-empty capture, else the whole text; on a parse failure fall back to
the first-`\x7b`-to-last-`\x7d` substring. -/
def rawData (text : String) : Option JVal :=
  let stage1 : Option JVal :=
    match fenceCapture text.data with
    | some cap => if cap ≠ [] then jsonParse cap else jsonParse text.data
    | none => jsonParse text.data
  match stage1 with
  | some v => some v
  | none =>
    match braceSub text.data with
    | some sub => jsonParse sub
    | none => none

/-- Embedding of the full response handling of the AI handler
(src/unnamed/part_002 lines 101–129): the parsing cascade followed by the
truthiness-guarded normalization of the parsed value. -/
def extractData (text : String) : Except Unit (Option JVal) :=
  match rawData text with
  | some v => (normalizeData v).map some
  | none => .ok none

example : extractData "0" = .ok (some (.num 0)) := by rfl
example : extractData "x ```json\n\x7b\"a\": 1\x7d\n``` y" =
    .ok (some (.obj [("a".data, .num 1), ("source".data, .str "AI".data),
      ("agencies".data, .arr []), ("trunkedSystems".data, .arr [])])) := by rfl
example : extractData "noise \x7b\"agencies\": [\x7b\x7d]\x7d tail" =
    .ok (some (.obj [("agencies".data,
      .arr [.obj [("frequencies".data, .arr [])]]), ("source".data, .str "AI".data),
      ("trunkedSystems".data, .arr [])])) := by rfl
example : extractData "42" = .error () := by rfl
example : extractData "no json here" = .ok none := by rfl

theorem lexStep_innum_bt (toks : List JTok) (acc : List Char) :
    lexStep ⟨toks, .innum acc⟩ '`' = none := by
  simp only [lexStep]
  rw [if_neg (by decide)]
  cases h : numOfChars acc.reverse with
  | none => simp [h]
  | some q =>
    simp only [h]
    exact rfl

theorem lexStep_inlit_bt (toks : List JTok) (acc : List Char) :
    lexStep ⟨toks, .inlit acc⟩ '`' = none := by
  simp only [lexStep]
  rw [if_neg (by decide)]
  cases h : litTok acc.reverse with
  | none => simp [h]
  | some t =>
    simp only [h]
    exact rfl

theorem fold_fence_none (st : LexSt) :
    List.foldlM lexStep st ('`' :: '`' :: '`' :: 'j' :: 's' :: 'o' :: 'n' :: '\n' :: []) =
      none := by
  cases st with
  | mk toks mode =>
    cases mode with
    | top => rfl
    | instr acc => rfl
    | esc acc => rfl
    | hex acc pend => rfl
    | innum acc =>
      rw [List.foldlM_cons, lexStep_innum_bt]
      rfl
    | inlit acc =>
      rw [List.foldlM_cons, lexStep_inlit_bt]
      rfl

theorem jsonParse_contains_fence {cs u v : List Char}
    (h : cs = u ++ ('`' :: '`' :: '`' :: 'j' :: 's' :: 'o' :: 'n' :: '\n' :: []) ++ v) :
    jsonParse cs = none := by
  have hlex : lexChars cs = none := by
    unfold lexChars
    rw [h, List.foldlM_append]
    cases hu : List.foldlM lexStep (⟨[], .top⟩ : LexSt) u with
    | none =>
      rw [List.foldlM_append, hu]
      rfl
    | some st =>
      rw [List.foldlM_append, hu]
      have hf := fold_fence_none st
      show ((List.foldlM lexStep st
          ('`' :: '`' :: '`' :: 'j' :: 's' :: 'o' :: 'n' :: '\n' :: [])).bind
          (fun init => List.foldlM lexStep init v)).bind lexFinish = none
      rw [hf]
      rfl
  unfold jsonParse
  rw [hlex]
  rfl

theorem findSeqSplit_decomp {pat cs a b : List Char}
    (h : findSeqSplit pat cs = some (a, b)) : cs = a ++ pat ++ b := by
  induction cs generalizing a b with
  | nil =>
    simp only [findSeqSplit] at h
    split at h
    next hp =>
      injection h with h'
      injection h' with h1 h2
      subst h1; subst h2
      have : pat = [] := by
        cases pat with
        | nil => rfl
        | cons p ps => exact absurd hp (by simp [List.isPrefixOf])
      simp [this]
    next => exact Option.noConfusion h
  | cons c rest ih =>
    simp only [findSeqSplit] at h
    split at h
    next hp =>
      injection h with h'
      injection h' with h1 h2
      subst h1; subst h2
      have hpre : pat <+: c :: rest := by
        exact List.isPrefixOf_iff_prefix.mp hp
      rcases hpre with ⟨t, ht⟩
      rw [← ht]
      simp [← ht, List.drop_left]
    next =>
      cases hf : findSeqSplit pat rest with
      | none => rw [hf] at h; exact Option.noConfusion h
      | some p =>
        rw [hf] at h
        simp only [Option.map_some'] at h
        injection h with h'
        have h1 : c :: p.1 = a := congrArg Prod.fst h'
        have h2 : p.2 = b := congrArg Prod.snd h'
        cases a with
        | nil => exact absurd h1 (by simp)
        | cons a0 as_ =>
          injection h1 with hc ha
          subst hc
          have hres := ih (a := as_) (b := b) (by
            rw [hf]
            exact congrArg some (Prod.ext ha h2))
          simp [List.cons_append, hres]

theorem fenceCapture_split {cs cap : List Char}
    (h : fenceCapture cs = some cap) :
    ∃ u v, cs = u ++ ('`' :: '`' :: '`' :: 'j' :: 's' :: 'o' :: 'n' :: '\n' :: []) ++ v := by
  unfold fenceCapture at h
  cases hf : findSeqSplit ('`' :: '`' :: '`' :: 'j' :: 's' :: 'o' :: 'n' :: '\n' :: []) cs with
  | none => rw [hf] at h; exact Option.noConfusion h
  | some p => exact ⟨p.1, p.2, findSeqSplit_decomp (by rw [hf])⟩

/-- Claim-side cascade, literally in the claim's order: (1) parse the
fenced block contents, (2) on failure parse the whole text, (3) on
failure parse the brace-to-brace substring; `none` when all fail. -/
def orderedAttempts (text : String) : Option JVal :=
  match (match fenceCapture text.data with
         | some cap => jsonParse cap
         | none => none) with
  | some v => some v
  | none =>
    match jsonParse text.data with
    | some v => some v
    | none =>
      match braceSub text.data with
      | some sub => jsonParse sub
      | none => none

def isArrV : JVal → Bool
  | .arr _ => true
  | _ => false

def fieldIsArr (fs : List (List Char × JVal)) (k : List Char) : Bool :=
  match lookupField fs k with
  | some v => isArrV v
  | none => false

def elemFreqOk : JVal → Bool
  | .obj fs => fieldIsArr fs "frequencies".data
  | _ => true

def elemTsOk : JVal → Bool
  | .obj fs => fieldIsArr fs "frequencies".data && fieldIsArr fs "talkgroups".data
  | _ => true

/-- Claim-side shape predicate: `agencies` and `trunkedSystems` are
arrays, every object element of `agencies` has an array `frequencies`
field, and every object element of `trunkedSystems` has array
`frequencies` and `talkgroups` fields. -/
def fieldsAreArrays : JVal → Bool
  | .obj fs =>
    (match lookupField fs "agencies".data with
     | some (.arr l) => l.all elemFreqOk
     | _ => false) &&
    (match lookupField fs "trunkedSystems".data with
     | some (.arr l) => l.all elemTsOk
     | _ => false)
  | _ => false

theorem lookupField_set_same (fs : List (List Char × JVal)) (k : List Char) (x : JVal) :
    lookupField (setField fs k x) k = some x := by
  induction fs with
  | nil => simp [setField, lookupField]
  | cons hd rest ih =>
    obtain ⟨a, b⟩ := hd
    by_cases hk : a = k
    · simp [setField, lookupField, hk]
    · simp [setField, lookupField, hk, ih]

theorem lookupField_set_other {k k' : List Char} (h : k' ≠ k)
    (fs : List (List Char × JVal)) (x : JVal) :
    lookupField (setField fs k x) k' = lookupField fs k' := by
  induction fs with
  | nil => simp [setField, lookupField, (Ne.symm h : ¬ k = k')]
  | cons hd rest ih =>
    obtain ⟨a, b⟩ := hd
    by_cases hk : a = k
    · subst hk
      have hne : ¬ a = k' := fun he => h he.symm
      simp [setField, lookupField, hne]
    · simp [setField, lookupField, hk, ih]

theorem ensureArrOpt_isArr (o : Option JVal) : isArrV (ensureArrOpt o) = true := by
  cases o with
  | none => rfl
  | some v => cases v <;> rfl

theorem exMapM_mem {f : α → Except Unit β} {l : List α} {l2 : List β}
    (h : exMapM f l = .ok l2) : ∀ y ∈ l2, ∃ x, f x = .ok y := by
  induction l generalizing l2 with
  | nil =>
    simp only [exMapM] at h
    injection h with h'
    subst h'
    intro y hy
    exact absurd hy (by simp)
  | cons a rest ih =>
    simp only [exMapM] at h
    cases hf : f a with
    | error e => rw [hf] at h; exact Except.noConfusion h
    | ok y0 =>
      rw [hf] at h
      cases hr : exMapM f rest with
      | error e => rw [hr] at h; exact Except.noConfusion h
      | ok ys =>
        rw [hr] at h
        injection h with h'
        subst h'
        intro y hy
        cases hy with
        | head => exact ⟨a, hf⟩
        | tail _ hy' => exact ih hr y hy'

theorem normAgencyEl_ok {x y : JVal} (h : normAgencyEl x = .ok y) :
    elemFreqOk y = true := by
  cases x with
  | obj fs =>
    simp only [normAgencyEl] at h
    injection h with h'
    subst h'
    simp only [elemFreqOk, fieldIsArr, lookupField_set_same]
    exact ensureArrOpt_isArr _
  | arr l =>
    simp only [normAgencyEl] at h
    injection h with h'
    subst h'
    rfl
  | null => exact Except.noConfusion h
  | bool b => exact Except.noConfusion h
  | num q => exact Except.noConfusion h
  | str s => exact Except.noConfusion h

theorem normTsEl_ok {x y : JVal} (h : normTsEl x = .ok y) :
    elemTsOk y = true := by
  cases x with
  | obj fs =>
    simp only [normTsEl] at h
    injection h with h'
    subst h'
    have h1 : fieldIsArr (setField (setField fs "talkgroups".data
        (ensureArrOpt (lookupField fs "talkgroups".data))) "frequencies".data
        (ensureArrOpt (lookupField (setField fs "talkgroups".data
          (ensureArrOpt (lookupField fs "talkgroups".data))) "frequencies".data)))
        "frequencies".data = true := by
      simp only [fieldIsArr, lookupField_set_same]
      exact ensureArrOpt_isArr _
    have h2 : fieldIsArr (setField (setField fs "talkgroups".data
        (ensureArrOpt (lookupField fs "talkgroups".data))) "frequencies".data
        (ensureArrOpt (lookupField (setField fs "talkgroups".data
          (ensureArrOpt (lookupField fs "talkgroups".data))) "frequencies".data)))
        "talkgroups".data = true := by
      simp only [fieldIsArr,
        lookupField_set_other (by decide : "talkgroups".data ≠ "frequencies".data),
        lookupField_set_same]
      exact ensureArrOpt_isArr _
    simp only [elemTsOk, h1, h2, Bool.and_self]
  | arr l =>
    simp only [normTsEl] at h
    injection h with h'
    subst h'
    rfl
  | null => exact Except.noConfusion h
  | bool b => exact Except.noConfusion h
  | num q => exact Except.noConfusion h
  | str s => exact Except.noConfusion h

theorem normalizeData_obj {v : JVal} {fs : List (List Char × JVal)}
    (h : normalizeData v = .ok (.obj fs)) : fieldsAreArrays (.obj fs) = true := by
  cases v with
  | null =>
    simp only [normalizeData, jsTruthy, if_neg (by decide : ¬ (false = true))] at h
    injection h with h'
    exact JVal.noConfusion h'
  | bool b =>
    cases b with
    | false =>
      simp only [normalizeData, jsTruthy, if_neg (by decide : ¬ (false = true))] at h
      injection h with h'
      exact JVal.noConfusion h'
    | true =>
      simp only [normalizeData, jsTruthy, if_pos rfl] at h
      exact Except.noConfusion h
  | num q =>
    by_cases hq : q = 0
    · subst hq
      simp only [normalizeData, jsTruthy] at h
      rw [if_neg (by simp)] at h
      injection h with h'
      exact JVal.noConfusion h'
    · simp only [normalizeData, jsTruthy] at h
      rw [if_pos (by simp [hq])] at h
      exact Except.noConfusion h
  | str s =>
    by_cases hs : s = []
    · subst hs
      simp only [normalizeData, jsTruthy] at h
      rw [if_neg (by simp)] at h
      injection h with h'
      exact JVal.noConfusion h'
    · simp only [normalizeData, jsTruthy] at h
      rw [if_pos (by simp [hs])] at h
      exact Except.noConfusion h
  | arr l =>
    simp only [normalizeData, jsTruthy, if_pos rfl] at h
    injection h with h'
    exact JVal.noConfusion h'
  | obj fs0 =>
    simp only [normalizeData, jsTruthy, if_pos rfl] at h
    cases hag : exMapM normAgencyEl
        (match lookupField (setField fs0 "source".data (.str "AI".data)) "agencies".data with
         | some (.arr l) => l
         | _ => []) with
    | error e => rw [hag] at h; exact Except.noConfusion h
    | ok agl2 =>
      rw [hag] at h
      cases hts : exMapM normTsEl
          (match lookupField (setField fs0 "source".data (.str "AI".data)) "trunkedSystems".data with
           | some (.arr l) => l
           | _ => []) with
      | error e => rw [hts] at h; exact Except.noConfusion h
      | ok tsl2 =>
        rw [hts] at h
        injection h with h'
        injection h' with h''
        subst h''
        have hlts : lookupField (setField (setField
            (setField fs0 "source".data (.str "AI".data)) "agencies".data (.arr agl2))
            "trunkedSystems".data (.arr tsl2)) "trunkedSystems".data = some (.arr tsl2) :=
          lookupField_set_same _ _ _
        have hlag : lookupField (setField (setField
            (setField fs0 "source".data (.str "AI".data)) "agencies".data (.arr agl2))
            "trunkedSystems".data (.arr tsl2)) "agencies".data = some (.arr agl2) := by
          rw [lookupField_set_other (by decide : "agencies".data ≠ "trunkedSystems".data)]
          exact lookupField_set_same _ _ _
        simp only [fieldsAreArrays, hlts, hlag]
        have hagall : agl2.all elemFreqOk = true := by
          rw [List.all_eq_true]
          intro y hy
          obtain ⟨x, hx⟩ := exMapM_mem hag y hy
          exact normAgencyEl_ok hx
        have htsall : tsl2.all elemTsOk = true := by
          rw [List.all_eq_true]
          intro y hy
          obtain ⟨x, hx⟩ := exMapM_mem hts y hy
          exact normTsEl_ok hx
        rw [hagall, htsall]
        rfl

theorem extract_obj_shape {text : String} {fs : List (List Char × JVal)}
    (h : extractData text = .ok (some (.obj fs))) : fieldsAreArrays (.obj fs) = true := by
  unfold extractData at h
  cases hr : rawData text with
  | none =>
    rw [hr] at h
    injection h with h'
    exact Option.noConfusion h'
  | some v =>
    rw [hr] at h
    have h2 : Except.map some (normalizeData v) = Except.ok (some (.obj fs)) := h
    cases hn : normalizeData v with
    | error e => rw [hn] at h2; exact Except.noConfusion h2
    | ok w =>
      rw [hn] at h2
      injection h2 with h'
      injection h' with h''
      subst h''
      exact normalizeData_obj hn

theorem rawData_eq_orderedAttempts (text : String) :
    rawData text = orderedAttempts text := by
  unfold rawData orderedAttempts
  cases hf : fenceCapture text.data with
  | none => rfl
  | some cap =>
    show (match (if cap ≠ [] then jsonParse cap else jsonParse text.data) with
          | some v => some v
          | none =>
            match braceSub text.data with
            | some sub => jsonParse sub
            | none => none) =
        (match jsonParse cap with
         | some v => some v
         | none =>
           match jsonParse text.data with
           | some v => some v
           | none =>
             match braceSub text.data with
             | some sub => jsonParse sub
             | none => none)
    by_cases hc : cap = []
    · subst hc
      rw [if_neg (by simp)]
      rfl
    · rw [if_pos hc]
      cases hj : jsonParse cap with
      | some v => rfl
      | none =>
        obtain ⟨u, v, huv⟩ := fenceCapture_split hf
        rw [jsonParse_contains_fence huv]

/-- C8: AI oracle JSON recovery (amended).  For every AI response text,
the raw parsed value of the handler's cascade equals the value of the
claim's three strictly ordered attempts (fenced block, then whole text,
then brace-to-brace substring; `none` when all fail) — the handler's
skipping of the whole-text attempt after a failed fenced attempt is
harmless because a text containing a fence never parses as JSON — and
whenever the final extracted result is a JSON object, its `agencies` and
`trunkedSystems` fields are arrays and every nested object element has
array `frequencies` (and `talkgroups`) fields.  (The original claim's
normalization clause for non-object results is refuted separately: falsy
parse results such as `0` are returned unnormalized.) -/
theorem C8_ai_json_recovery (text : String) :
    rawData text = orderedAttempts text ∧
    ∀ fs, extractData text = .ok (some (.obj fs)) → fieldsAreArrays (.obj fs) = true :=
  ⟨rawData_eq_orderedAttempts text, fun _ h => extract_obj_shape h⟩

/-- C8 counterexample to the claim as stated: the response text `0`
parses (whole-text attempt) to the falsy value `0`, which the handler
returns as the extracted result without normalization — its `agencies`
and `trunkedSystems` fields are not arrays. -/
theorem C8_counterexample :
    extractData "0" = .ok (some (.num 0)) ∧ fieldsAreArrays (.num 0) = false :=
  ⟨rfl, rfl⟩

/-- C8 witness: the amended theorem evaluated on a concrete fenced
response. -/
theorem C8_ai_json_recovery_witness :
    rawData "x ```json\n\x7b\"agencies\": []\x7d\n``` y" =
      orderedAttempts "x ```json\n\x7b\"agencies\": []\x7d\n``` y" ∧
    fieldsAreArrays (.obj [("agencies".data, .arr []), ("source".data, .str "AI".data),
      ("trunkedSystems".data, .arr [])]) = true :=
  ⟨(C8_ai_json_recovery "x ```json\n\x7b\"agencies\": []\x7d\n``` y").1,
   (C8_ai_json_recovery "x ```json\n\x7b\"agencies\": []\x7d\n``` y").2
     [("agencies".data, .arr []), ("source".data, .str "AI".data),
      ("trunkedSystems".data, .arr [])] (by rfl)⟩
